import Mathlib

/-!
# atoll passphrase generator: a shallow embedding of `passphrase.go`

## Strings

Go strings are modelled by the list of their code points (`Str`); the
requests handled here are well-formed UTF-8 text, for which the byte-wise
substring search of the `strings` package coincides with the search over code
points.  `len(s)` is the number of bytes of the UTF-8 encoding (`goLen`).

## The random source and panics

The random source `randInt` is not part of `passphrase.go`.  It is a
parameter `rnd : Nat → Nat → Nat`: the value returned by the `k`-th call
when the bound is `n`.  A computation (`M`) threads the number of calls made
so far and may stop on a run-time panic: an index out of range, a bound that
is not positive, a slice size that `make` refuses.  `make([]T, n)` panics
(`makeslice: len out of range`) when `n` is negative, which includes a
`uint64` above the largest `int`, and when the `n` elements take more than
`maxAlloc` bytes, the bound of the runtime on one allocation on a 64-bit
platform (`makeSlice`).  Below that bound memory is not counted: an
allocation the runtime accepts is taken to succeed.  The calls of `make`
written in `passphrase.go` are modelled so; `strings.Split` and
`strings.Join` are total functions, and a theorem that needs the slice
`strings.Split` returns to be within the bound says so.

## The rest of the package

The dictionaries `atollWords` and `atollSyllables`, `normalize` and
`calculateEntropy` are defined in other files of the package; they are the
fields of the parameter `Env`.  `getFuncName` tells the three strategies
apart by name; a strategy is a constructor of `list` here, and the field
`List` holds `none` for a nil function value.

## Integers

`Length` is a `uint64`, held in a `Nat` below `2 ^ 64`; `int(p.Length)` is
`goInt`, the two's complement reading on 64 bits.
-/

namespace Atoll

/-- A Go string, as the list of its code points. -/
abbrev Str := List Char

/-- Go `len(s)` for a string: the number of bytes of its UTF-8 encoding. -/
def goLen (s : Str) : Nat := (s.map Char.utf8Size).sum

/-- Go `int(x)` for `x : uint64` on a 64-bit platform (two's complement). -/
def goInt (x : Nat) : Int :=
  if x % 2 ^ 64 < 2 ^ 63 then ((x % 2 ^ 64 : Nat) : Int)
  else ((x % 2 ^ 64 : Nat) : Int) - ((2 ^ 64 : Nat) : Int)

/-- Go `strings.Join(elems, sep)`. -/
def Join : List Str → Str → Str
  | [], _ => []
  | [w], _ => w
  | w :: w2 :: ws, sep => w ++ sep ++ Join (w2 :: ws) sep

/-- Scanning loop of `strings.Split` for a non-empty separator: `skip` counts
the characters of a separator occurrence still to be jumped over, `cur` holds
the current piece in reverse.  The leftmost occurrence is cut first. -/
def splitGo (sep : Str) : Nat → Str → Str → List Str
  | _, cur, [] => [cur.reverse]
  | skip + 1, cur, _ :: cs => splitGo sep skip cur cs
  | 0, cur, c :: cs =>
    if sep.isPrefixOf (c :: cs) then cur.reverse :: splitGo sep (sep.length - 1) [] cs
    else splitGo sep 0 (c :: cur) cs

/-- Go `strings.Split(s, sep)`: with an empty separator the string is exploded
into its characters. -/
def Split (s sep : Str) : List Str :=
  if sep = [] then s.map (fun c => [c]) else splitGo sep 0 [] s

/-- Go `strings.Contains(s, substr)`. -/
def Contains : Str → Str → Bool
  | [], sub => sub.isEmpty
  | c :: cs, sub => sub.isPrefixOf (c :: cs) || Contains cs sub

/-- A computation of the program: it receives the number of `randInt` calls
made so far and either panics (`none`) or returns a value together with the
new number of calls. -/
def M (α : Type) : Type := Nat → Option (α × Nat)

instance : Monad M where
  pure a := fun k => some (a, k)
  bind m f := fun k =>
    match m k with
    | none => none
    | some (a, k1) => f a k1

/-- Modelled from the spec: `randInt(n)`, the random source consumed by
`passphrase.go`, returns an integer in `[0, n)`; no such integer exists for
`n = 0` and the call fails then.  The value of the `k`-th call is `rnd k n`. -/
def randInt (rnd : Nat → Nat → Nat) (n : Nat) : M Nat :=
  fun k => if n = 0 then none else some (rnd k n, k + 1)

/-- A random source that honours its contract: every value is below the bound. -/
def ValidRnd (rnd : Nat → Nat → Nat) : Prop := ∀ k n, 0 < n → rnd k n < n

/-- Go slice or array indexing `a[i]`, which panics out of range. -/
def index {α : Type} (a : List α) (i : Nat) : M α :=
  fun k => (a[i]?).map (fun x => (x, k))

/-- The bound of the Go runtime on the size in bytes of one allocation, on a
64-bit platform (`maxAlloc`, 48 address bits). -/
def maxAlloc : Nat := 2 ^ 48

/-- Go `make([]T, n)` for elements of `elemSize` bytes: the runtime panics
(`makeslice: len out of range`) when the size is negative or when the elements
take more than `maxAlloc` bytes.  A string takes 16 bytes and an `int` 8. -/
def makeSlice {α : Type} (elemSize : Nat) (n : Int) (zero : α) : M (List α) :=
  fun k =>
    if n < 0 ∨ (maxAlloc : Int) < (elemSize : Int) * n then none
    else some (List.replicate n.toNat zero, k)

def vowels : List Str := [['a'], ['e'], ['i'], ['o'], ['u']]

def constants : List Str :=
  [['b'], ['c'], ['d'], ['f'], ['g'], ['h'], ['j'], ['k'], ['l'], ['m'], ['n'],
   ['p'], ['q'], ['r'], ['s'], ['t'], ['v'], ['w'], ['x'], ['y'], ['z']]

/-- The generation strategies, the three functions of type `list` of the
package; `getFuncName` is the name of the constructor. -/
inductive list where
  | NoList
  | WordList
  | SyllableList
  deriving DecidableEq, Repr

abbrev Words := List Str

/-- The struct `Passphrase`; `E` is the type of the values of `calculateEntropy`
(`float64` in the source). -/
structure Passphrase (E : Type) where
  Secret : Str
  Length : Nat
  Separator : Str
  List : Option list
  Include : Words
  Exclude : Words
  Entropy : E
  deriving DecidableEq, Repr

/-- What `passphrase.go` uses from the rest of the package: the two
dictionaries, `normalize`, `calculateEntropy` and the zero value of its
result type. -/
structure Env (E : Type) where
  atollWords : List Str
  atollSyllables : List Str
  normalize : Str → Str
  calculateEntropy : Int → Int → E
  zero : E

/-- The errors returned by `Generate`, in the order of the source. -/
inductive GenError where
  | lengthTooLow
  | includeExceeds
  | includedAndExcluded (excl : Str)
  | invalidCharacters
  deriving DecidableEq, Repr

/-- POSIX class `[:graph:]` of Go regular expressions: `!` to `~`. -/
def isGraph (c : Char) : Bool := decide (0x21 ≤ c.toNat) && decide (c.toNat ≤ 0x7E)

/-- The test `regexp.MatchString("[[:^graph:]]", word)`: some character of the
word is outside `[:graph:]`. -/
def invalidWord (word : Str) : Bool := word.any (fun c => !isGraph c)

/-- One letter of a pseudo-word: the body of the inner loop of `NoList`. -/
def letter (rnd : Nat → Nat → Nat) : M Str := do
  let r ← randInt rnd 11
  if r ≤ 3 then do
    let i ← randInt rnd vowels.length
    index vowels i
  else do
    let i ← randInt rnd constants.length
    index constants i

/-- The loop `for j := 0; j < wordLength; j++` of `NoList`, appending letters. -/
def syllablesLoop (rnd : Nat → Nat → Nat) : Nat → List Str → M (List Str)
  | 0, syllables => pure syllables
  | j + 1, syllables => do
    let l ← letter rnd
    syllablesLoop rnd j (syllables ++ [l])

/-- One pseudo-word: the body of the outer loop of `NoList`, which
`excludeWords` repeats.  `make([]string, wordLength)` starts the slice with
`wordLength` empty strings, and the letters are appended after them. -/
def pseudoWord (rnd : Nat → Nat → Nat) : M Str := do
  let r ← randInt rnd 10
  let wordLength := r + 3
  let syllables ← makeSlice 16 (wordLength : Int) ([] : Str)
  let syllables ← syllablesLoop rnd wordLength syllables
  pure (Join syllables [])

/-- One dictionary token: `dict[randInt(len(dict))]`. -/
def dictWord (rnd : Nat → Nat → Nat) (dict : List Str) : M Str := do
  let i ← randInt rnd dict.length
  index dict i

/-- The token produced by a strategy. -/
def token {E : Type} (env : Env E) (rnd : Nat → Nat → Nat) : list → M Str
  | .NoList => pseudoWord rnd
  | .WordList => dictWord rnd env.atollWords
  | .SyllableList => dictWord rnd env.atollSyllables

/-- The loop `for i := range passphrase { passphrase[i] = ... }`: `n` positions
remain, starting at `i`. -/
def fillLoop (gen : M Str) : Nat → Nat → List Str → M (List Str)
  | 0, _, passphrase => pure passphrase
  | n + 1, i, passphrase => do
    let word ← gen
    fillLoop gen n (i + 1) (passphrase.set i word)

/-- The common shape of `NoList`, `WordList` and `SyllableList`:
`make([]string, p.Length)`, whose size is a `uint64`, then the loop over the
slice and the join. -/
def fillSecret {E : Type} (gen : M Str) (p : Passphrase E) : M (Passphrase E) := do
  let passphrase ← makeSlice 16 (goInt p.Length) ([] : Str)
  let passphrase ← fillLoop gen passphrase.length 0 passphrase
  pure { p with Secret := Join passphrase p.Separator }

def NoList {E : Type} (rnd : Nat → Nat → Nat) (p : Passphrase E) : M (Passphrase E) :=
  fillSecret (pseudoWord rnd) p

def WordList {E : Type} (env : Env E) (rnd : Nat → Nat → Nat) (p : Passphrase E) :
    M (Passphrase E) :=
  fillSecret (dictWord rnd env.atollWords) p

def SyllableList {E : Type} (env : Env E) (rnd : Nat → Nat → Nat) (p : Passphrase E) :
    M (Passphrase E) :=
  fillSecret (dictWord rnd env.atollSyllables) p

/-- The call `p.List(p)` through the function value. -/
def runList {E : Type} (env : Env E) (rnd : Nat → Nat → Nat) (m : list) (p : Passphrase E) :
    M (Passphrase E) :=
  match m with
  | .NoList => NoList rnd p
  | .WordList => WordList env rnd p
  | .SyllableList => SyllableList env rnd p

/-- The pool size resolved by the `switch` of `entropyBits`. -/
def basePool {E : Type} (env : Env E) (p : Passphrase E) : list → Int
  | .NoList => ((vowels.length + constants.length + goLen p.Separator : Nat) : Int)
  | .WordList => (env.atollWords.length : Int)
  | .SyllableList => (env.atollSyllables.length : Int)

def entropyBits {E : Type} (env : Env E) (p : Passphrase E) (m : list) : E :=
  let poolLen := basePool env p m
  let poolLen := poolLen + (p.Include.length : Int)
  let poolLen := poolLen - (p.Exclude.length : Int)
  env.calculateEntropy poolLen (goLen p.Secret : Int)

/-- First loop of `includeWords`: `for i := range indices`, `m` iterations
remain, starting at `i`. -/
def pickLoop (rnd : Nat → Nat → Nat) : Nat → Nat → List Nat → List Nat → M (List Nat)
  | 0, _, _, indices => pure indices
  | m + 1, i, pwdIndices, indices => do
    let n ← randInt rnd pwdIndices.length
    let idx ← index pwdIndices n
    pickLoop rnd m (i + 1) (pwdIndices.take n ++ pwdIndices.drop (n + 1)) (indices.set i idx)

/-- Inner loop of the second part of `includeWords`: `for _, j := range indices`
at position `i`; the state is `words` and `p.Include`. -/
def includeInner (rnd : Nat → Nat → Nat) (i : Nat) :
    List Nat → List Str × List Str → M (List Str × List Str)
  | [], st => pure st
  | j :: js, (words, incl) =>
    if i = j then do
      let n ← randInt rnd incl.length
      let w ← index incl n
      includeInner rnd i js (words.set i w, incl.take n ++ incl.drop (n + 1))
    else includeInner rnd i js (words, incl)

/-- Outer loop `for i := range words` of `includeWords`. -/
def includeOuter (rnd : Nat → Nat → Nat) (indices : List Nat) :
    Nat → Nat → List Str × List Str → M (List Str × List Str)
  | 0, _, st => pure st
  | m + 1, i, st => do
    let st1 ← includeInner rnd i indices st
    includeOuter rnd indices m (i + 1) st1

def includeWords {E : Type} (rnd : Nat → Nat → Nat) (p : Passphrase E) : M (Passphrase E) := do
  let indices ← makeSlice 8 (p.Include.length : Int) 0
  let pwdIndices ← makeSlice 8 (goInt p.Length) 0
  let pwdIndices := (List.range (goInt p.Length).toNat).foldl (fun a i => a.set i i) pwdIndices
  let indices ← pickLoop rnd indices.length 0 pwdIndices indices
  let words := Split p.Secret p.Separator
  let st ← includeOuter rnd indices words.length 0 (words, p.Include)
  pure { p with Secret := Join st.1 p.Separator, Include := st.2 }

/-- Inner loop of `excludeWords`: `for _, excl := range p.Exclude` at position
`i`, whose token was `word` when the iteration started. -/
def excludeInner (gen : M Str) (i : Nat) (word : Str) : List Str → List Str → M (List Str)
  | [], words => pure words
  | excl :: rest, words =>
    if word = excl then do
      let w ← gen
      excludeInner gen i word rest (words.set i w)
    else excludeInner gen i word rest words

/-- Outer loop `for i, word := range words` of `excludeWords`. -/
def excludeOuter (gen : M Str) (exclude : List Str) : Nat → Nat → List Str → M (List Str)
  | 0, _, words => pure words
  | m + 1, i, words => do
    let word ← index words i
    let words1 ← excludeInner gen i word exclude words
    excludeOuter gen exclude m (i + 1) words1

def excludeWords {E : Type} (env : Env E) (rnd : Nat → Nat → Nat) (p : Passphrase E) (m : list) :
    M (Passphrase E) := do
  let words := Split p.Secret p.Separator
  let words1 ← excludeOuter (token env rnd m) p.Exclude words.length 0 words
  pure { p with Secret := Join words1 p.Separator }

/-- Lines 67-73 of `Generate`: an empty separator becomes a single space and a
nil `List` becomes `NoList`. -/
def withDefaults {E : Type} (p : Passphrase E) : Passphrase E :=
  let p := if p.Separator = [] then { p with Separator := [' '] } else p
  if p.List = none then { p with List := some .NoList } else p

/-- The function value held by `p.List`, as `getFuncName` names it once the
defaults are set. -/
def strategy {E : Type} (p : Passphrase E) : list :=
  match p.List with
  | some l => l
  | none => .NoList

/-- Lines 79-93 of `Generate`: the two checks made when `Include` is not empty,
the overlap with `Exclude` first, then the characters of the normalized words. -/
def includeError {E : Type} (env : Env E) (p : Passphrase E) : Option GenError :=
  let incl := Join p.Include p.Separator
  match p.Exclude.find? (fun excl => Contains incl excl) with
  | some excl => some (.includedAndExcluded excl)
  | none =>
    if p.Include.any (fun word => invalidWord (env.normalize word)) then
      some .invalidCharacters
    else none

/-- Lines 98-104 of `Generate`: the exclude pass and the entropy. -/
def finish {E : Type} (env : Env E) (rnd : Nat → Nat → Nat) (p : Passphrase E) :
    M (Option GenError × Passphrase E) := do
  let p ← if p.Exclude.length ≠ 0 then excludeWords env rnd p (strategy p) else pure p
  pure (none, { p with Entropy := entropyBits env p (strategy p) })

/-- The method `Generate`: the error returned (`none` for `nil`) and the
request as the call leaves it. -/
def Generate {E : Type} (env : Env E) (rnd : Nat → Nat → Nat) (p : Passphrase E) :
    M (Option GenError × Passphrase E) :=
  if p.Length < 1 then pure (some .lengthTooLow, p)
  else if (p.Include.length : Int) > goInt p.Length then pure (some .includeExceeds, p)
  else do
    let p := withDefaults p
    let p ← runList env rnd (strategy p) p
    if p.Include.length ≠ 0 then
      match includeError env p with
      | some e => pure (some e, p)
      | none => do
        let p ← includeWords rnd p
        finish env rnd p
    else finish env rnd p

/-- The function `NewPassphrase`: the string and the error it returns. -/
def NewPassphrase {E : Type} (env : Env E) (rnd : Nat → Nat → Nat) (length : Nat)
    (l : Option list) : M (Str × Option GenError) := do
  let p : Passphrase E :=
    { Secret := [], Length := length, Separator := [], List := l, Include := [],
      Exclude := [], Entropy := env.zero }
  let (err, p) ← Generate env rnd p
  match err with
  | some e => pure ([], some e)
  | none => pure (p.Secret, none)

/-- A source that replays the values of a list (reduced below the bound), then zeros. -/
def tape (vs : List Nat) : Nat → Nat → Nat := fun k n => vs.getD k 0 % n

/-- An environment for evaluation: small dictionaries, `normalize` as the
identity and `calculateEntropy` recording its two arguments. -/
def envT : Env (Int × Int) where
  atollWords := ["correct".toList, "horse".toList, "battery".toList]
  atollSyllables := ["ba".toList, "ter".toList]
  normalize := id
  calculateEntropy := fun pool len => (pool, len)
  zero := (0, 0)

/-- A computation that always returns, with a value satisfying `P`. -/
def Yields {α : Type} (gen : M α) (P : α → Prop) : Prop :=
  ∀ k, ∃ a k1, gen k = some (a, k1) ∧ P a

/-- One of the 26 one-letter strings of `vowels` and `constants`. -/
def IsLetter (c : Char) : Prop := [c] ∈ vowels ++ constants

/-- The tokens a strategy can produce: a pseudo-word of 3 to 12 letters, or an
entry of the dictionary. -/
def Producible {E : Type} (env : Env E) : list → Str → Prop
  | .NoList, w => 3 ≤ w.length ∧ w.length ≤ 12 ∧ ∀ c ∈ w, IsLetter c
  | .WordList, w => w ∈ env.atollWords
  | .SyllableList, w => w ∈ env.atollSyllables

/-- The dictionary a strategy draws from is not empty (`NoList` has none). -/
def DictReady {E : Type} (env : Env E) : list → Prop
  | .NoList => True
  | .WordList => env.atollWords ≠ []
  | .SyllableList => env.atollSyllables ≠ []

/-- The separator in force once `Generate` has set the defaults. -/
def sepOf {E : Type} (p : Passphrase E) : Str :=
  if p.Separator = [] then [' '] else p.Separator

/-- The first character of the separator does not occur in the token. -/
def AvoidsSep (sep w : Str) : Prop := ∀ c, sep.head? = some c → c ∉ w

/-- The request as a successful `Generate` leaves it when the final tokens
are `ws`: `Include` has been emptied by the include pass. -/
def finalState {E : Type} (env : Env E) (p : Passphrase E) (ws : List Str) : Passphrase E :=
  let q : Passphrase E :=
    { Secret := Join ws (sepOf p), Length := p.Length, Separator := sepOf p,
      List := some (strategy p), Include := [], Exclude := p.Exclude, Entropy := p.Entropy }
  { q with Entropy := entropyBits env q (strategy p) }

/-- The number of tokens of `ws` equal to `w`. -/
def occurrences (w : Str) (ws : List Str) : Nat := (ws.filter (fun t => decide (t = w))).length

/-- The pseudo-word built by the loop body of `NoList` when its first draw is
the `k`-th call of the random source: the draw for the length, then for the
letter at position `t` the 0-10 draw at call `k + 1 + 2 * t`. -/
def PseudoWordAt (rnd : Nat → Nat → Nat) (k : Nat) (w : Str) : Prop :=
  w.length = rnd k 10 + 3 ∧
    ∀ t (h : t < w.length), IsLetter w[t] ∧ ([w[t]] ∈ vowels ↔ rnd (k + 1 + 2 * t) 11 ≤ 3)

/-- The calls at which `n` successive tokens start, from call `k`, when a token
that starts at call `kk` ends at call `next kk`. -/
def callStarts (next : Nat → Nat) : Nat → Nat → List Nat
  | 0, _ => []
  | n + 1, k => k :: callStarts next n (next k)

/-- Modelled from the spec: `normalize`, the word-normalization function
(case-folding and trimming) applied to the caller-supplied include words; it
is not in `passphrase.go`.  Spaces are trimmed at both ends and the ASCII
capitals are folded to lower case. -/
def normalizeFold (s : Str) : Str :=
  (((s.dropWhile (fun c => c = ' ')).reverse.dropWhile (fun c => c = ' ')).reverse).map
    (fun c => if 65 ≤ c.toNat ∧ c.toNat ≤ 90 then Char.ofNat (c.toNat + 32) else c)

/-- The evaluation environment `envT` with `normalizeFold` for `normalize`. -/
def envN : Env (Int × Int) where
  atollWords := envT.atollWords
  atollSyllables := envT.atollSyllables
  normalize := normalizeFold
  calculateEntropy := envT.calculateEntropy
  zero := envT.zero

/-- The number of pieces `strings.Split` cuts `s` into, for a non-empty separator. -/
def pieces (sep s : Str) : Nat := (splitGo sep 0 [] s).length

/-- The call reached after `n` successive calls of `gen`, the first at call `k`. -/
def callsFrom (gen : M Str) : Nat → Nat → Option Nat
  | 0, k => some k
  | n + 1, k =>
    match gen k with
    | none => none
    | some (_, k1) => callsFrom gen n k1

/-- The exclude pass, position by position, between the calls `k` and `k1` of the
random source.  A token outside `exclude` is kept and no call is made.  For a
token in `exclude` the strategy is called once per entry of `exclude` equal to
it, each call starting where the previous one ended, and the token returned
by the last call takes the position.  The next position starts where this
one ended. -/
def ExcludePass (gen : M Str) (exclude : List Str) : Nat → List Str → List Str → Nat → Prop
  | k, [], [], k1 => k1 = k
  | k, w :: ws, w1 :: ws1, k1 =>
    (w ∉ exclude ∧ w1 = w ∧ ExcludePass gen exclude k ws ws1 k1) ∨
    (w ∈ exclude ∧ ∃ kk k2, callsFrom gen (occurrences w exclude - 1) k = some kk ∧
      gen kk = some (w1, k2) ∧ ExcludePass gen exclude k2 ws ws1 k1)
  | _, _ :: _, [], _ => False
  | _, [], _ :: _, _ => False

/-! ## The computations: sequencing -/

theorem bind_some {α β : Type} (m : M α) (f : α → M β) (k k1 : Nat) (a : α)
    (h : m k = some (a, k1)) : (m >>= f) k = f a k1 := by
  show (match m k with
    | none => none
    | some (a, k1) => f a k1) = f a k1
  rw [h]

theorem pure_run {α : Type} (a : α) (k : Nat) : (pure a : M α) k = some (a, k) := rfl

theorem randInt_run (rnd : Nat → Nat → Nat) (n k : Nat) (h : 0 < n) :
    randInt rnd n k = some (rnd k n, k + 1) := by
  unfold randInt
  rw [if_neg (Nat.pos_iff_ne_zero.mp h)]

theorem index_run {α : Type} (a : List α) (i k : Nat) (h : i < a.length) :
    index a i k = some (a[i], k) := by
  unfold index
  rw [List.getElem?_eq_getElem h]
  rfl

theorem goInt_small (x : Nat) (h : x < 2 ^ 63) : goInt x = (x : Int) := by
  have h2 : x % 2 ^ 64 = x := Nat.mod_eq_of_lt (by omega)
  unfold goInt
  rw [h2, if_pos h]

theorem goInt_big (x : Nat) (h1 : 2 ^ 63 ≤ x) (h2 : x < 2 ^ 64) : goInt x < 0 := by
  have h3 : x % 2 ^ 64 = x := Nat.mod_eq_of_lt h2
  unfold goInt
  rw [h3, if_neg (by omega)]
  omega

theorem maxAlloc_eq : maxAlloc = 281474976710656 := by decide

theorem makeSlice_run {α : Type} (elemSize n : Nat) (zero : α) (k : Nat)
    (h : elemSize * n ≤ maxAlloc) :
    makeSlice elemSize (n : Int) zero k = some (List.replicate n zero, k) := by
  unfold makeSlice
  have h1 : ¬ ((n : Int) < 0 ∨ (maxAlloc : Int) < (elemSize : Int) * (n : Int)) := by
    have h2 : ((elemSize * n : Nat) : Int) ≤ (maxAlloc : Int) := Int.ofNat_le.mpr h
    rw [Int.natCast_mul] at h2
    omega
  rw [if_neg h1]
  simp

theorem makeSlice_inv {α : Type} (elemSize : Nat) (n : Int) (zero : α) (k k1 : Nat)
    (a : List α) (h : makeSlice elemSize n zero k = some (a, k1)) :
    0 ≤ n ∧ elemSize * n.toNat ≤ maxAlloc ∧ a = List.replicate n.toNat zero ∧ k1 = k := by
  unfold makeSlice at h
  by_cases hc : n < 0 ∨ (maxAlloc : Int) < (elemSize : Int) * n
  · rw [if_pos hc] at h
    exact absurd h (by simp)
  · rw [if_neg hc] at h
    simp only [Option.some.injEq, Prod.mk.injEq] at h
    have h0 : 0 ≤ n := by omega
    refine ⟨h0, ?_, h.1.symm, h.2.symm⟩
    have h2 : (elemSize : Int) * n ≤ (maxAlloc : Int) := by omega
    have h3 : ((n.toNat : Nat) : Int) = n := Int.toNat_of_nonneg h0
    rw [← h3, ← Int.natCast_mul] at h2
    exact Int.ofNat_le.mp h2

/-- A slice of strings the runtime accepts has fewer than `2 ^ 63` elements, and
a slice of as many `int` is accepted too. -/
theorem alloc_bounds (n : Nat) (h : 16 * n ≤ maxAlloc) : n < 2 ^ 63 ∧ 8 * n ≤ maxAlloc := by
  rw [maxAlloc_eq] at h ⊢
  omega

/-! ## `strings.Join` and `strings.Split` -/

theorem Join_cons_cons (w w2 : Str) (ws : List Str) (sep : Str) :
    Join (w :: w2 :: ws) sep = w ++ sep ++ Join (w2 :: ws) sep := rfl

theorem Join_nil_sep (ws : List Str) : Join ws [] = ws.flatten := by
  induction ws with
  | nil => rfl
  | cons w ws ih =>
    cases ws with
    | nil => simp [Join]
    | cons w2 ws => rw [Join_cons_cons, ih]; simp

theorem splitGo_skip (sep : Str) (xs rest cur : Str) :
    splitGo sep xs.length cur (xs ++ rest) = splitGo sep 0 cur rest := by
  induction xs with
  | nil => rfl
  | cons x xs ih => simpa [splitGo] using ih

theorem splitGo_token (c : Char) (tl : Str) (w : Str) (hw : c ∉ w) (cur rest : Str) :
    splitGo (c :: tl) 0 cur (w ++ rest) = splitGo (c :: tl) 0 (w.reverse ++ cur) rest := by
  induction w generalizing cur with
  | nil => rfl
  | cons x w ih =>
    have hx : c ≠ x := fun h => hw (by simp [h])
    have hw2 : c ∉ w := fun h => hw (by simp [h])
    have hp : (c :: tl).isPrefixOf (x :: (w ++ rest)) = false := by
      simp [List.isPrefixOf, hx]
    show splitGo (c :: tl) 0 cur (x :: (w ++ rest)) = _
    rw [splitGo, if_neg (by simp [hp]), ih hw2]
    simp

theorem splitGo_sep (sep cur rest : Str) (hs : sep ≠ []) :
    splitGo sep 0 cur (sep ++ rest) = cur.reverse :: splitGo sep 0 [] rest := by
  cases sep with
  | nil => exact absurd rfl hs
  | cons c tl =>
    have hp : (c :: tl).isPrefixOf (c :: (tl ++ rest)) = true := by
      rw [List.isPrefixOf_iff_prefix]
      exact ⟨rest, rfl⟩
    show splitGo (c :: tl) 0 cur (c :: (tl ++ rest)) = _
    rw [splitGo, if_pos hp]
    have := splitGo_skip (c :: tl) tl rest []
    simpa using this

/-- Splitting undoes joining when the first character of the separator occurs
in no token. -/
theorem Split_Join (c : Char) (tl : Str) (ws : List Str) (hne : ws ≠ [])
    (hws : ∀ w ∈ ws, c ∉ w) : Split (Join ws (c :: tl)) (c :: tl) = ws := by
  unfold Split
  rw [if_neg (by simp)]
  induction ws with
  | nil => exact absurd rfl hne
  | cons w ws ih =>
    have hw : c ∉ w := hws w (by simp)
    cases ws with
    | nil =>
      have := splitGo_token c tl w hw [] []
      simp only [List.append_nil] at this
      show splitGo (c :: tl) 0 [] w = [w]
      rw [this]
      simp [splitGo]
    | cons w2 ws =>
      rw [Join_cons_cons, List.append_assoc, splitGo_token c tl w hw,
        splitGo_sep _ _ _ (by simp), ih (by simp) (fun x hx => hws x (by simp [hx]))]
      simp

/-! ## The strategies -/

theorem letter_run (rnd : Nat → Nat → Nat) (hv : ValidRnd rnd) (k : Nat) :
    ∃ l, letter rnd k = some (l, k + 2) ∧ l ∈ vowels ++ constants ∧
      (rnd k 11 ≤ 3 → l ∈ vowels) ∧ (¬ rnd k 11 ≤ 3 → l ∈ constants) := by
  unfold letter
  rw [bind_some _ _ _ _ _ (randInt_run rnd 11 k (by decide))]
  by_cases h : rnd k 11 ≤ 3
  · rw [if_pos h, bind_some _ _ _ _ _ (randInt_run rnd vowels.length (k + 1) (by decide))]
    have hi : rnd (k + 1) vowels.length < vowels.length := hv _ _ (by decide)
    refine ⟨vowels[rnd (k + 1) vowels.length], index_run _ _ _ hi, ?_, fun _ => ?_, fun h2 => absurd h h2⟩
    · exact List.mem_append_left _ (List.getElem_mem _)
    · exact List.getElem_mem _
  · rw [if_neg h, bind_some _ _ _ _ _ (randInt_run rnd constants.length (k + 1) (by decide))]
    have hi : rnd (k + 1) constants.length < constants.length := hv _ _ (by decide)
    refine ⟨constants[rnd (k + 1) constants.length], index_run _ _ _ hi, ?_, fun h2 => absurd h2 h, fun _ => ?_⟩
    · exact List.mem_append_right _ (List.getElem_mem _)
    · exact List.getElem_mem _

theorem syllablesLoop_run (rnd : Nat → Nat → Nat) (hv : ValidRnd rnd) (j : Nat) :
    ∀ (syllables : List Str) (k : Nat), ∃ ls,
      syllablesLoop rnd j syllables k = some (syllables ++ ls, k + 2 * j) ∧ ls.length = j ∧
        ∀ l ∈ ls, l ∈ vowels ++ constants := by
  induction j with
  | zero => intro syllables k; exact ⟨[], by simp [syllablesLoop, pure_run], rfl, by simp⟩
  | succ j ih =>
    intro syllables k
    obtain ⟨l, hl, hmem, -, -⟩ := letter_run rnd hv k
    obtain ⟨ls, hls, hlen, hall⟩ := ih (syllables ++ [l]) (k + 2)
    refine ⟨l :: ls, ?_, by simp [hlen], ?_⟩
    · rw [syllablesLoop, bind_some _ _ _ _ _ hl, hls]
      simp only [List.append_assoc, List.singleton_append]
      congr 2
      omega
    · intro x hx
      rcases List.mem_cons.mp hx with h | h
      · exact h ▸ hmem
      · exact hall x h

theorem letters_flatten (ls : List Str) (h : ∀ l ∈ ls, l ∈ vowels ++ constants) :
    ls.flatten.length = ls.length ∧ ∀ c ∈ ls.flatten, IsLetter c := by
  induction ls with
  | nil => simp
  | cons l ls ih =>
    have hl := h l (by simp)
    obtain ⟨h1, h2⟩ := ih (fun x hx => h x (by simp [hx]))
    have hone : ∃ c, l = [c] := by
      revert hl
      simp only [vowels, constants, List.cons_append, List.nil_append, List.mem_cons,
        List.mem_singleton, List.not_mem_nil, or_false]
      intro hl
      rcases hl with h | h | h | h | h | h | h | h | h | h | h | h | h | h | h | h | h | h | h
        | h | h | h | h | h | h | h <;> exact ⟨_, h⟩
    obtain ⟨c, rfl⟩ := hone
    refine ⟨by simp [h1], ?_⟩
    intro x hx
    simp only [List.flatten_cons, List.singleton_append, List.mem_cons] at hx
    rcases hx with rfl | hx
    · exact hl
    · exact h2 x hx

theorem pseudoWord_run (rnd : Nat → Nat → Nat) (hv : ValidRnd rnd) (k : Nat) :
    ∃ w k1, pseudoWord rnd k = some (w, k1) ∧ w.length = rnd k 10 + 3 ∧
      ∀ c ∈ w, IsLetter c := by
  unfold pseudoWord
  rw [bind_some _ _ _ _ _ (randInt_run rnd 10 k (by decide))]
  obtain ⟨ls, hls, hlen, hall⟩ :=
    syllablesLoop_run rnd hv (rnd k 10 + 3) (List.replicate (rnd k 10 + 3) []) (k + 1)
  obtain ⟨h1, h2⟩ := letters_flatten ls hall
  have hr : rnd k 10 < 10 := hv _ _ (by decide)
  have hA : 16 * (rnd k 10 + 3) ≤ maxAlloc := by rw [maxAlloc_eq]; omega
  refine ⟨ls.flatten, k + 1 + 2 * (rnd k 10 + 3), ?_, by rw [h1, hlen], h2⟩
  rw [bind_some _ _ _ _ _ (makeSlice_run 16 (rnd k 10 + 3) [] (k + 1) hA),
    bind_some _ _ _ _ _ hls, pure_run, Join_nil_sep]
  simp

theorem dictWord_run (rnd : Nat → Nat → Nat) (hv : ValidRnd rnd) (dict : List Str)
    (hd : dict ≠ []) (k : Nat) :
    ∃ w, dictWord rnd dict k = some (w, k + 1) ∧ w ∈ dict ∧
      dict[rnd k dict.length]? = some w := by
  have hpos : 0 < dict.length := List.length_pos.mpr hd
  have hi : rnd k dict.length < dict.length := hv _ _ hpos
  unfold dictWord
  rw [bind_some _ _ _ _ _ (randInt_run rnd dict.length k hpos)]
  exact ⟨dict[rnd k dict.length], index_run _ _ _ hi, List.getElem_mem _,
    List.getElem?_eq_getElem hi⟩

/-- Every strategy returns a token it can produce. -/
theorem token_yields {E : Type} (env : Env E) (rnd : Nat → Nat → Nat) (hv : ValidRnd rnd)
    (m : list) (hd : DictReady env m) : Yields (token env rnd m) (Producible env m) := by
  intro k
  cases m with
  | NoList =>
    obtain ⟨w, k1, h, hlen, hall⟩ := pseudoWord_run rnd hv k
    have hr : rnd k 10 < 10 := hv _ _ (by decide)
    exact ⟨w, k1, h, by omega, by omega, hall⟩
  | WordList =>
    obtain ⟨w, h, hmem, -⟩ := dictWord_run rnd hv env.atollWords hd k
    exact ⟨w, _, h, hmem⟩
  | SyllableList =>
    obtain ⟨w, h, hmem, -⟩ := dictWord_run rnd hv env.atollSyllables hd k
    exact ⟨w, _, h, hmem⟩

/-! ## Slices -/

theorem set_at_length {α : Type} (pre : List α) (x w : α) (post : List α) :
    (pre ++ x :: post).set pre.length w = pre ++ w :: post := by
  induction pre with
  | nil => rfl
  | cons a pre ih => simp [List.set, ih]

theorem get_at_length {α : Type} (pre : List α) (x : α) (post : List α) :
    (pre ++ x :: post)[pre.length]? = some x := by
  induction pre with
  | nil => simp
  | cons a pre ih => simpa using ih

theorem index_at_length {α : Type} (pre : List α) (x : α) (post : List α) (k : Nat) :
    index (pre ++ x :: post) pre.length k = some (x, k) := by
  unfold index
  rw [get_at_length]
  rfl

theorem fillLoop_run (gen : M Str) (P : Str → Prop) (hg : Yields gen P) (n : Nat) :
    ∀ (done : List Str) (k : Nat), ∃ ws k1,
      fillLoop gen n done.length (done ++ List.replicate n []) k = some (done ++ ws, k1) ∧
        ws.length = n ∧ ∀ w ∈ ws, P w := by
  induction n with
  | zero => intro done k; exact ⟨[], k, by simp [fillLoop, pure_run], rfl, by simp⟩
  | succ n ih =>
    intro done k
    obtain ⟨w, k1, hw, hP⟩ := hg k
    obtain ⟨ws, k2, hws, hlen, hall⟩ := ih (done ++ [w]) k1
    refine ⟨w :: ws, k2, ?_, by simp [hlen], ?_⟩
    · rw [fillLoop, bind_some _ _ _ _ _ hw, List.replicate_succ, set_at_length]
      simpa using hws
    · intro x hx
      rcases List.mem_cons.mp hx with h | h
      · exact h ▸ hP
      · exact hall x h

/-- The three strategies: the secret is the join of `Length` tokens the
strategy can produce; no other field changes. -/
theorem fillSecret_run {E : Type} (gen : M Str) (P : Str → Prop) (hg : Yields gen P)
    (p : Passphrase E) (k : Nat) (hA : 16 * p.Length ≤ maxAlloc) :
    ∃ ws k1, fillSecret gen p k = some ({ p with Secret := Join ws p.Separator }, k1) ∧
      ws.length = p.Length ∧ ∀ w ∈ ws, P w := by
  obtain ⟨ws, k1, h, hlen, hall⟩ := fillLoop_run gen P hg p.Length [] k
  refine ⟨ws, k1, ?_, hlen, hall⟩
  unfold fillSecret
  rw [goInt_small _ (alloc_bounds _ hA).1,
    bind_some _ _ _ _ _ (makeSlice_run 16 p.Length [] k hA), List.length_replicate,
    bind_some _ _ _ _ _ (by simpa using h)]
  rfl

theorem runList_eq {E : Type} (env : Env E) (rnd : Nat → Nat → Nat) (m : list)
    (p : Passphrase E) : runList env rnd m p = fillSecret (token env rnd m) p := by
  cases m <;> rfl

/-! ## The exclude pass -/

theorem set_set_same {α : Type} (l : List α) (i : Nat) (a b : α) :
    (l.set i a).set i b = l.set i b := by
  induction l generalizing i with
  | nil => rfl
  | cons x l ih =>
    cases i with
    | zero => rfl
    | succ i => simp [List.set, ih]

theorem excludeInner_run (gen : M Str) (P : Str → Prop) (hg : Yields gen P) (i : Nat)
    (word : Str) (exclude : List Str) :
    ∀ (words : List Str) (k : Nat), ∃ words1 k1,
      excludeInner gen i word exclude words k = some (words1, k1) ∧
        ((word ∉ exclude ∧ words1 = words) ∨
          (word ∈ exclude ∧ ∃ w, P w ∧ words1 = words.set i w)) := by
  induction exclude with
  | nil => intro words k; exact ⟨words, k, rfl, Or.inl ⟨by simp, rfl⟩⟩
  | cons excl rest ih =>
    intro words k
    by_cases h : word = excl
    · obtain ⟨w, k1, hw, hP⟩ := hg k
      obtain ⟨words1, k2, h1, h2⟩ := ih (words.set i w) k1
      refine ⟨words1, k2, ?_, Or.inr ⟨by simp [h], ?_⟩⟩
      · rw [excludeInner, if_pos h, bind_some _ _ _ _ _ hw, h1]
      · rcases h2 with ⟨-, rfl⟩ | ⟨-, w2, hP2, rfl⟩
        · exact ⟨w, hP, rfl⟩
        · exact ⟨w2, hP2, set_set_same _ _ _ _⟩
    · obtain ⟨words1, k1, h1, h2⟩ := ih words k
      refine ⟨words1, k1, ?_, ?_⟩
      · rw [excludeInner, if_neg h, h1]
      · rcases h2 with ⟨hn, rfl⟩ | ⟨hm, w2, hP2, rfl⟩
        · exact Or.inl ⟨by simp [h, hn], rfl⟩
        · exact Or.inr ⟨by simp [hm], w2, hP2, rfl⟩

theorem excludeOuter_run (gen : M Str) (P : Str → Prop) (hg : Yields gen P)
    (exclude : List Str) (post : List Str) :
    ∀ (pre : List Str) (k : Nat), ∃ post1 k1,
      excludeOuter gen exclude post.length pre.length (pre ++ post) k = some (pre ++ post1, k1) ∧
        List.Forall₂ (fun w w1 => (w ∉ exclude ∧ w1 = w) ∨ (w ∈ exclude ∧ P w1)) post post1 := by
  induction post with
  | nil => intro pre k; exact ⟨[], k, by simp [excludeOuter, pure_run], List.Forall₂.nil⟩
  | cons x post ih =>
    intro pre k
    obtain ⟨words1, k1, h1, h2⟩ := excludeInner_run gen P hg pre.length x exclude (pre ++ x :: post) k
    have key : ∃ x1, words1 = pre ++ x1 :: post ∧ ((x ∉ exclude ∧ x1 = x) ∨ (x ∈ exclude ∧ P x1)) := by
      rcases h2 with ⟨hn, rfl⟩ | ⟨hm, w, hP, rfl⟩
      · exact ⟨x, rfl, Or.inl ⟨hn, rfl⟩⟩
      · exact ⟨w, set_at_length _ _ _ _, Or.inr ⟨hm, hP⟩⟩
    obtain ⟨x1, rfl, hx1⟩ := key
    obtain ⟨post1, k2, h3, h4⟩ := ih (pre ++ [x1]) k1
    refine ⟨x1 :: post1, k2, ?_, List.Forall₂.cons hx1 h4⟩
    rw [List.length_cons, excludeOuter, bind_some _ _ _ _ _ (index_at_length pre x post k),
      bind_some _ _ _ _ _ h1]
    simpa using h3

/-! ## The include pass -/

theorem take_drop_perm {α : Type} (l : List α) (n : Nat) (h : n < l.length) :
    l = l.take n ++ l[n] :: l.drop (n + 1) := by
  induction l generalizing n with
  | nil => simp at h
  | cons a l ih =>
    cases n with
    | zero => simp
    | succ n =>
      have h2 : n < l.length := by simpa using h
      simp

theorem fill_range (L : Nat) : ∀ j, j ≤ L →
    (List.range j).foldl (fun a i => a.set i i) (List.replicate L 0) =
      List.range j ++ List.replicate (L - j) 0 := by
  intro j
  induction j with
  | zero => intro _; simp
  | succ j ih =>
    intro hj
    rw [List.range_succ, List.foldl_append, ih (by omega)]
    have h1 : L - j = (L - (j + 1)) + 1 := by omega
    have h2 := set_at_length (List.range j) 0 j (List.replicate (L - (j + 1)) 0)
    rw [List.length_range] at h2
    rw [h1, List.replicate_succ]
    simp only [List.foldl_cons, List.foldl_nil]
    rw [h2]
    simp

theorem pickLoop_run (rnd : Nat → Nat → Nat) (hv : ValidRnd rnd) (m : Nat) :
    ∀ (pwdIndices done : List Nat) (k : Nat), m ≤ pwdIndices.length → pwdIndices.Nodup →
      ∃ picked, pickLoop rnd m done.length pwdIndices (done ++ List.replicate m 0) k =
          some (done ++ picked, k + m) ∧
        picked.length = m ∧ picked.Nodup ∧ ∀ x ∈ picked, x ∈ pwdIndices := by
  induction m with
  | zero =>
    intro pwd done k _ _
    exact ⟨[], by simp [pickLoop, pure_run], rfl, List.nodup_nil, by simp⟩
  | succ m ih =>
    intro pwd done k hm hnd
    have hpos : 0 < pwd.length := by omega
    have hn : rnd k pwd.length < pwd.length := hv _ _ hpos
    have hsplit := take_drop_perm pwd (rnd k pwd.length) hn
    generalize hN : rnd k pwd.length = n at hn hsplit
    have hnd2 : (pwd.take n ++ pwd[n] :: pwd.drop (n + 1)).Nodup := hsplit ▸ hnd
    have hlen : (pwd.take n ++ pwd.drop (n + 1)).length = pwd.length - 1 := by
      simp only [List.length_append, List.length_take, List.length_drop]
      omega
    have hnd3 : (pwd.take n ++ pwd.drop (n + 1)).Nodup := by
      have := List.nodup_middle.mp hnd2
      exact (List.nodup_cons.mp this).2
    have hnot : pwd[n] ∉ pwd.take n ++ pwd.drop (n + 1) := by
      have := List.nodup_middle.mp hnd2
      exact (List.nodup_cons.mp this).1
    obtain ⟨picked, h1, h2, h3, h4⟩ :=
      ih (pwd.take n ++ pwd.drop (n + 1)) (done ++ [pwd[n]]) (k + 1) (by omega) hnd3
    refine ⟨pwd[n] :: picked, ?_, by simp [h2], ?_, ?_⟩
    · rw [pickLoop, bind_some _ _ _ _ _ (randInt_run rnd pwd.length k hpos), hN,
        bind_some _ _ _ _ _ (index_run pwd n (k + 1) hn), List.replicate_succ, set_at_length]
      have h5 : k + 1 + m = k + (m + 1) := by omega
      simpa [h5] using h1
    · exact List.nodup_cons.mpr ⟨fun hx => hnot (h4 _ hx), h3⟩
    · intro x hx
      rcases List.mem_cons.mp hx with h | h
      · exact h ▸ List.getElem_mem _
      · have := h4 x h
        rcases List.mem_append.mp this with h6 | h6
        · exact List.mem_of_mem_take h6
        · exact List.mem_of_mem_drop h6

theorem includeInner_skip (rnd : Nat → Nat → Nat) (i : Nat) (js : List Nat) (hi : i ∉ js)
    (st : List Str × List Str) (k : Nat) : includeInner rnd i js st k = some (st, k) := by
  induction js with
  | nil => rfl
  | cons j js ih =>
    obtain ⟨words, incl⟩ := st
    have h1 : i ≠ j := fun h => hi (by simp [h])
    have h2 : i ∉ js := fun h => hi (by simp [h])
    rw [includeInner, if_neg h1]
    exact ih h2

theorem includeInner_hit (rnd : Nat → Nat → Nat) (hv : ValidRnd rnd) (i : Nat) (js : List Nat)
    (hnd : js.Nodup) (hi : i ∈ js) (words incl : List Str) (hne : incl ≠ []) (k : Nat) :
    ∃ w incl1, includeInner rnd i js (words, incl) k = some ((words.set i w, incl1), k + 1) ∧
      incl.Perm (w :: incl1) := by
  induction js with
  | nil => simp at hi
  | cons j js ih =>
    have hnd1 := List.nodup_cons.mp hnd
    by_cases h : i = j
    · have hpos : 0 < incl.length := List.length_pos.mpr hne
      have hn : rnd k incl.length < incl.length := hv _ _ hpos
      have hsplit := take_drop_perm incl (rnd k incl.length) hn
      generalize hN : rnd k incl.length = n at hn hsplit
      refine ⟨incl[n], incl.take n ++ incl.drop (n + 1), ?_, ?_⟩
      · rw [includeInner, if_pos h, bind_some _ _ _ _ _ (randInt_run rnd incl.length k hpos), hN,
          bind_some _ _ _ _ _ (index_run incl n (k + 1) hn)]
        exact includeInner_skip rnd i js (h ▸ hnd1.1) _ _
      · have := @List.perm_middle _ incl[n] (incl.take n) (incl.drop (n + 1))
        rw [← hsplit] at this
        exact this
    · have h2 : i ∈ js := by
        rcases List.mem_cons.mp hi with h3 | h3
        · exact absurd h3 h
        · exact h3
      obtain ⟨w, incl1, h4, h5⟩ := ih hnd1.2 h2
      exact ⟨w, incl1, by rw [includeInner, if_neg h]; exact h4, h5⟩

theorem filter_le_count (l : List Nat) (i : Nat) :
    (l.filter (fun j => decide (i ≤ j))).length =
      (l.filter (fun j => decide (i + 1 ≤ j))).length + l.count i := by
  induction l with
  | nil => rfl
  | cons a l ih =>
    by_cases h1 : i + 1 ≤ a
    · have h2 : i ≤ a := by omega
      have h3 : a ≠ i := by omega
      simp [List.filter_cons, h1, h2, List.count_cons, h3, ih]
      omega
    · by_cases h2 : i ≤ a
      · have h3 : a = i := by omega
        subst h3
        simp [List.filter_cons, ih]
        omega
      · have h3 : a ≠ i := by omega
        simp [List.filter_cons, h1, h2, List.count_cons, h3, ih]

theorem includeOuter_run (rnd : Nat → Nat → Nat) (hv : ValidRnd rnd) (indices : List Nat)
    (hnd : indices.Nodup) (post : List Str) :
    ∀ (pre incl : List Str) (k : Nat), (∀ j ∈ indices, j < pre.length + post.length) →
      incl.length = (indices.filter (fun j => decide (pre.length ≤ j))).length →
      ∃ post1 k1 kept,
        includeOuter rnd indices post.length pre.length (pre ++ post, incl) k =
            some ((pre ++ post1, []), k1) ∧
          kept.Sublist post ∧ post1.Perm (incl ++ kept) ∧ post1.length = post.length := by
  induction post with
  | nil =>
    intro pre incl k hlt hlen
    have hf : indices.filter (fun j => decide (pre.length ≤ j)) = [] := by
      rw [List.filter_eq_nil_iff]
      intro j hj
      have := hlt j hj
      simp only [List.length_nil, Nat.add_zero] at this
      simp
      omega
    rw [hf] at hlen
    have hi : incl = [] := List.length_eq_zero.mp hlen
    subst hi
    exact ⟨[], k, [], by simp [includeOuter, pure_run], List.Sublist.slnil, by simp, rfl⟩
  | cons x post ih =>
    intro pre incl k hlt hlen
    have hcount := filter_le_count indices pre.length
    have hlt2 : ∀ j ∈ indices, j < (pre ++ [x]).length + post.length := by
      intro j hj
      have := hlt j hj
      simp only [List.length_cons] at this
      simp only [List.length_append, List.length_singleton]
      omega
    by_cases hi : pre.length ∈ indices
    · have hc : indices.count pre.length = 1 := List.count_eq_one_of_mem hnd hi
      have hne : incl ≠ [] := by
        intro h
        rw [h] at hlen
        simp only [List.length_nil] at hlen
        omega
      obtain ⟨w, incl1, h1, hperm⟩ := includeInner_hit rnd hv pre.length indices hnd hi
        (pre ++ x :: post) incl hne k
      have hl1 : incl1.length = (indices.filter (fun j => decide ((pre ++ [w]).length ≤ j))).length := by
        have := hperm.length_eq
        simp only [List.length_cons] at this
        simp only [List.length_append, List.length_singleton]
        omega
      have hlt3 : ∀ j ∈ indices, j < (pre ++ [w]).length + post.length := by
        simpa using hlt2
      obtain ⟨post1, k1, kept, h2, h3, h4, h6⟩ := ih (pre ++ [w]) incl1 (k + 1) hlt3 hl1
      refine ⟨w :: post1, k1, kept, ?_, List.Sublist.cons _ h3, ?_, by simp [h6]⟩
      · rw [List.length_cons, includeOuter, bind_some _ _ _ _ _ h1, set_at_length]
        simpa using h2
      · have h5 : (w :: post1).Perm (w :: (incl1 ++ kept)) := List.Perm.cons w h4
        exact h5.trans (List.Perm.append_right kept hperm.symm)
    · have hc : indices.count pre.length = 0 := List.count_eq_zero_of_not_mem hi
      have hl1 : incl.length = (indices.filter (fun j => decide ((pre ++ [x]).length ≤ j))).length := by
        simp only [List.length_append, List.length_singleton]
        omega
      obtain ⟨post1, k1, kept, h2, h3, h4, h6⟩ := ih (pre ++ [x]) incl k hlt2 hl1
      refine ⟨x :: post1, k1, x :: kept, ?_, List.Sublist.cons₂ _ h3, ?_, by simp [h6]⟩
      · rw [List.length_cons, includeOuter,
          bind_some _ _ _ _ _ (includeInner_skip rnd pre.length indices hi _ k)]
        simpa using h2
      · exact (List.Perm.cons x h4).trans List.perm_middle.symm

/-- The include pass: the tokens become a permutation of the include words
together with tokens kept from the draft, and `p.Include` is left empty. -/
theorem includeWords_run {E : Type} (rnd : Nat → Nat → Nat) (hv : ValidRnd rnd)
    (p : Passphrase E) (k : Nat) (hlen : p.Include.length ≤ p.Length) (hL : p.Length < 2 ^ 63)
    (hA : 8 * p.Length ≤ maxAlloc)
    (hsplit : p.Length ≤ (Split p.Secret p.Separator).length) :
    ∃ ws1 k1 kept,
      includeWords rnd p k =
          some ({ p with Secret := Join ws1 p.Separator, Include := [] }, k1) ∧
        kept.Sublist (Split p.Secret p.Separator) ∧ ws1.Perm (p.Include ++ kept) ∧
        ws1.length = (Split p.Secret p.Separator).length := by
  have hrange : (List.range p.Length).Nodup := List.nodup_range _
  obtain ⟨picked, h1, h2, h3, h4⟩ :=
    pickLoop_run rnd hv p.Include.length (List.range p.Length) [] k (by simpa using hlen) hrange
  have hlt : ∀ j ∈ picked, j < ([] : List Str).length + (Split p.Secret p.Separator).length := by
    intro j hj
    have := List.mem_range.mp (h4 j hj)
    simp only [List.length_nil, Nat.zero_add]
    omega
  have hlen2 : p.Include.length =
      (picked.filter (fun j => decide (([] : List Str).length ≤ j))).length := by
    simp [h2]
  obtain ⟨ws1, k1, kept, h5, h6, h7, h8⟩ :=
    includeOuter_run rnd hv picked h3 (Split p.Secret p.Separator) [] p.Include
      (k + p.Include.length) hlt hlen2
  refine ⟨ws1, k1, kept, ?_, h6, h7, h8⟩
  unfold includeWords
  rw [bind_some _ _ _ _ _ (makeSlice_run 8 p.Include.length 0 k (by omega)), goInt_small _ hL,
    bind_some _ _ _ _ _ (makeSlice_run 8 p.Length 0 k hA)]
  simp only [Int.toNat_ofNat]
  rw [fill_range p.Length p.Length (Nat.le_refl _)]
  simp only [Nat.sub_self, List.replicate_zero, List.append_nil, List.length_replicate]
  rw [bind_some _ _ _ _ _ (by simpa using h1), bind_some _ _ _ _ _ (by simpa using h5)]
  rfl

/-- The exclude pass: a token that is not excluded stays, an excluded one is
replaced by a token of the strategy. -/
theorem excludeWords_run {E : Type} (env : Env E) (rnd : Nat → Nat → Nat) (m : list)
    (P : Str → Prop) (hg : Yields (token env rnd m) P) (p : Passphrase E) (k : Nat) :
    ∃ ws1 k1,
      excludeWords env rnd p m k = some ({ p with Secret := Join ws1 p.Separator }, k1) ∧
        List.Forall₂ (fun w w1 => (w ∉ p.Exclude ∧ w1 = w) ∨ (w ∈ p.Exclude ∧ P w1))
          (Split p.Secret p.Separator) ws1 := by
  obtain ⟨ws1, k1, h1, h2⟩ :=
    excludeOuter_run (token env rnd m) P hg p.Exclude (Split p.Secret p.Separator) [] k
  refine ⟨ws1, k1, ?_, h2⟩
  unfold excludeWords
  rw [bind_some _ _ _ _ _ (by simpa using h1)]
  rfl

/-! ## `Generate` -/

theorem withDefaults_eq {E : Type} (p : Passphrase E) :
    withDefaults p = { p with Separator := sepOf p, List := some (strategy p) } := by
  obtain ⟨sec, len, sep, l, inc, exc, ent⟩ := p
  unfold withDefaults sepOf strategy
  by_cases hs : sep = [] <;> cases l <;> simp [hs]

theorem sepOf_ne_nil {E : Type} (p : Passphrase E) : sepOf p ≠ [] := by
  unfold sepOf
  by_cases hs : p.Separator = []
  · rw [if_pos hs]; simp
  · rw [if_neg hs]; exact hs

theorem forall2_refl_exclude (P : Str → Prop) (ws : List Str) :
    List.Forall₂ (fun w w1 => (w ∉ ([] : List Str) ∧ w1 = w) ∨ (w ∈ ([] : List Str) ∧ P w1))
      ws ws := by
  induction ws with
  | nil => exact List.Forall₂.nil
  | cons w ws ih => exact List.Forall₂.cons (Or.inl ⟨by simp, rfl⟩) ih

theorem finish_run {E : Type} (env : Env E) (rnd : Nat → Nat → Nat) (q : Passphrase E)
    (P : Str → Prop) (hg : Yields (token env rnd (strategy q)) P) (ws1 : List Str)
    (hq : q.Secret = Join ws1 q.Separator) (hs : Split q.Secret q.Separator = ws1) (k : Nat) :
    ∃ ws2 k1,
      finish env rnd q k =
          some ((none, { q with Secret := Join ws2 q.Separator,
                                Entropy := entropyBits env
                                  { q with Secret := Join ws2 q.Separator } (strategy q) }), k1) ∧
        List.Forall₂ (fun w w1 => (w ∉ q.Exclude ∧ w1 = w) ∨ (w ∈ q.Exclude ∧ P w1)) ws1 ws2 := by
  by_cases he : q.Exclude.length ≠ 0
  · obtain ⟨ws2, k1, h1, h2⟩ := excludeWords_run env rnd (strategy q) P hg q k
    refine ⟨ws2, k1, ?_, hs ▸ h2⟩
    unfold finish
    rw [if_pos he, bind_some _ _ _ _ _ h1]
    rfl
  · have he2 : q.Exclude = [] := List.length_eq_zero.mp (not_not.mp he)
    refine ⟨ws1, k, ?_, ?_⟩
    · unfold finish
      rw [if_neg he, bind_some _ _ _ _ _ (pure_run q k), ← hq]
      rfl
    · rw [he2]
      exact forall2_refl_exclude P ws1

theorem occurrences_cons (w a : Str) (ws : List Str) :
    occurrences w (a :: ws) = (if a = w then 1 else 0) + occurrences w ws := by
  unfold occurrences
  by_cases h : a = w
  · simp [List.filter_cons, h]; omega
  · simp [List.filter_cons, h]

theorem occurrences_append (w : Str) (xs ys : List Str) :
    occurrences w (xs ++ ys) = occurrences w xs + occurrences w ys := by
  unfold occurrences
  simp

theorem occurrences_perm (w : Str) (xs ys : List Str) (h : xs.Perm ys) :
    occurrences w xs = occurrences w ys := by
  unfold occurrences
  exact (h.filter _).length_eq

theorem occurrences_zero (w : Str) (ws : List Str) (h : w ∉ ws) : occurrences w ws = 0 := by
  unfold occurrences
  rw [List.length_eq_zero, List.filter_eq_nil_iff]
  intro a ha
  simp only [decide_eq_true_eq]
  exact fun h2 => h (h2 ▸ ha)

theorem forall2_count_le (excl : List Str) (P : Str → Prop) (w : Str) (hw : w ∉ excl)
    (ws1 ws2 : List Str)
    (h : List.Forall₂ (fun a b => (a ∉ excl ∧ b = a) ∨ (a ∈ excl ∧ P b)) ws1 ws2) :
    occurrences w ws1 ≤ occurrences w ws2 := by
  induction h with
  | nil => simp
  | @cons a b l1 l2 hab _ ih =>
    rw [occurrences_cons, occurrences_cons]
    rcases hab with ⟨-, rfl⟩ | ⟨hin, -⟩
    · omega
    · have hne : a ≠ w := fun h => hw (h ▸ hin)
      rw [if_neg hne]
      omega

theorem forall2_count_ge (excl : List Str) (P : Str → Prop) (w : Str) (hw : ¬ P w)
    (ws1 ws2 : List Str)
    (h : List.Forall₂ (fun a b => (a ∉ excl ∧ b = a) ∨ (a ∈ excl ∧ P b)) ws1 ws2) :
    occurrences w ws2 ≤ occurrences w ws1 := by
  induction h with
  | nil => simp
  | @cons a b l1 l2 hab _ ih =>
    rw [occurrences_cons, occurrences_cons]
    rcases hab with ⟨-, rfl⟩ | ⟨-, hP⟩
    · omega
    · have hne : b ≠ w := fun h => hw (h ▸ hP)
      rw [if_neg hne]
      omega

theorem forall2_mem (excl : List Str) (P : Str → Prop) (ws1 ws2 : List Str)
    (h : List.Forall₂ (fun a b => (a ∉ excl ∧ b = a) ∨ (a ∈ excl ∧ P b)) ws1 ws2) :
    ws2.length = ws1.length ∧ ∀ b ∈ ws2, b ∈ ws1 ∨ P b := by
  induction h with
  | nil => simp
  | @cons a b l1 l2 hab _ ih =>
    refine ⟨by simp [ih.1], ?_⟩
    intro x hx
    rcases List.mem_cons.mp hx with rfl | hx
    · rcases hab with ⟨-, rfl⟩ | ⟨-, hP⟩
      · exact Or.inl (by simp)
      · exact Or.inr hP
    · rcases ih.2 x hx with h1 | h1
      · exact Or.inl (by simp [h1])
      · exact Or.inr h1

/-- A run of `Generate` on a request that passes every check, when the first
character of the separator occurs in no token: the call succeeds, the final
secret is the join of `Length` tokens and splits back into them, every include
word is among them. -/
theorem Generate_run {E : Type} (env : Env E) (rnd : Nat → Nat → Nat) (hv : ValidRnd rnd)
    (p : Passphrase E) (k : Nat) (h1 : 1 ≤ p.Length) (hA : 16 * p.Length ≤ maxAlloc)
    (hlen : p.Include.length ≤ p.Length) (hd : DictReady env (strategy p))
    (hc : ∀ w, Producible env (strategy p) w ∨ w ∈ p.Include → AvoidsSep (sepOf p) w)
    (herr : p.Include ≠ [] → includeError env (withDefaults p) = none) :
    ∃ ws k1, Generate env rnd p k = some ((none, finalState env p ws), k1) ∧
      ws.length = p.Length ∧ Split (Join ws (sepOf p)) (sepOf p) = ws ∧
      (∀ w ∈ ws, Producible env (strategy p) w ∨ w ∈ p.Include) ∧
      (∀ w, w ∉ p.Exclude → occurrences w p.Include ≤ occurrences w ws) ∧
      (∀ w, ¬ Producible env (strategy p) w → occurrences w ws ≤ occurrences w p.Include) := by
  obtain ⟨c, tl, hsep⟩ : ∃ c tl, sepOf p = c :: tl := by
    have := sepOf_ne_nil p
    cases h : sepOf p with
    | nil => exact absurd h this
    | cons c tl => exact ⟨c, tl, rfl⟩
  have hav : ∀ w, Producible env (strategy p) w ∨ w ∈ p.Include → c ∉ w := by
    intro w hw
    exact hc w hw c (by rw [hsep]; rfl)
  have hg := token_yields env rnd hv (strategy p) hd
  have hL : p.Length < 2 ^ 63 := (alloc_bounds _ hA).1
  obtain ⟨ws0, k0, h0, hlen0, hall0⟩ :=
    fillSecret_run (token env rnd (strategy p)) (Producible env (strategy p)) hg
      { p with Separator := sepOf p, List := some (strategy p) } k hA
  replace hlen0 : ws0.length = p.Length := hlen0
  have hne0 : ws0 ≠ [] := by
    intro h
    rw [h] at hlen0
    simp only [List.length_nil] at hlen0
    omega
  have hs0 : Split (Join ws0 (sepOf p)) (sepOf p) = ws0 := by
    rw [hsep]
    exact Split_Join c tl ws0 hne0 (fun w hw => hav w (Or.inl (hall0 w hw)))
  have hn1 : ¬ p.Length < 1 := by omega
  have hn2 : ¬ (p.Include.length : Int) > goInt p.Length := by
    rw [goInt_small _ hL]
    omega
  unfold Generate
  rw [if_neg hn1, if_neg hn2]
  simp only [withDefaults_eq]
  have hstrat : strategy ({ p with Separator := sepOf p, List := some (strategy p) } : Passphrase E)
      = strategy p := rfl
  rw [hstrat, runList_eq, bind_some _ _ _ _ _ h0]
  by_cases hi : p.Include = []
  · have hi2 : ¬ (p.Include.length ≠ 0) := by simp [hi]
    simp only []
    rw [if_neg hi2]
    obtain ⟨ws2, k1, h2, h3⟩ := finish_run env rnd
      ({ p with Secret := Join ws0 (sepOf p), Separator := sepOf p, List := some (strategy p) })
      (Producible env (strategy p)) hg ws0 rfl hs0 k0
    obtain ⟨h4, h5⟩ := forall2_mem _ _ _ _ h3
    have hall2 : ∀ w ∈ ws2, Producible env (strategy p) w := by
      intro w hw
      rcases h5 w hw with h | h
      · exact hall0 w h
      · exact h
    have hne2 : ws2 ≠ [] := by
      intro h
      rw [h] at h4
      exact hne0 (List.length_eq_zero.mp h4.symm)
    refine ⟨ws2, k1, ?_, by rw [h4]; exact hlen0, ?_, fun w hw => Or.inl (hall2 w hw), ?_, ?_⟩
    · rw [h2]
      simp only [finalState, hi]
      rfl
    · rw [hsep]
      exact Split_Join c tl ws2 hne2 (fun w hw => hav w (Or.inl (hall2 w hw)))
    · intro w _
      simp [hi, occurrences]
    · intro w hw
      rw [occurrences_zero w ws2 (fun h => hw (hall2 w h))]
      exact Nat.zero_le _
  · have hi2 : p.Include.length ≠ 0 := fun h => hi (List.length_eq_zero.mp h)
    simp only []
    rw [if_pos hi2]
    have he := herr hi
    rw [withDefaults_eq] at he
    have he2 : includeError env
        { p with Secret := Join ws0 (sepOf p), Separator := sepOf p, List := some (strategy p) }
          = none := he
    simp only [he2]
    obtain ⟨ws1, k1, kept, h6, h7, h8, h9⟩ := includeWords_run rnd hv
      ({ p with Secret := Join ws0 (sepOf p), Separator := sepOf p, List := some (strategy p) })
      k0 hlen hL (alloc_bounds _ hA).2 (by simp only [hs0]; omega)
    simp only [hs0] at h7 h9
    rw [bind_some _ _ _ _ _ h6]
    have hmem1 : ∀ w ∈ ws1, Producible env (strategy p) w ∨ w ∈ p.Include := by
      intro w hw
      rcases List.mem_append.mp (h8.subset hw) with h | h
      · exact Or.inr h
      · exact Or.inl (hall0 w (h7.subset h))
    have hne1 : ws1 ≠ [] := by
      intro h
      rw [h] at h9
      exact hne0 (List.length_eq_zero.mp h9.symm)
    have hs1 : Split (Join ws1 (sepOf p)) (sepOf p) = ws1 := by
      rw [hsep]
      exact Split_Join c tl ws1 hne1 (fun w hw => hav w (hmem1 w hw))
    obtain ⟨ws2, k2, h2, h3⟩ := finish_run env rnd
      ({ p with Secret := Join ws1 (sepOf p), Separator := sepOf p, List := some (strategy p),
                Include := [] })
      (Producible env (strategy p)) hg ws1 rfl hs1 k1
    obtain ⟨h4, h5⟩ := forall2_mem _ _ _ _ h3
    have hmem2 : ∀ w ∈ ws2, Producible env (strategy p) w ∨ w ∈ p.Include := by
      intro w hw
      rcases h5 w hw with h | h
      · exact hmem1 w h
      · exact Or.inl h
    have hne2 : ws2 ≠ [] := by
      intro h
      rw [h] at h4
      exact hne1 (List.length_eq_zero.mp h4.symm)
    have hcount1 : ∀ w, occurrences w ws1 = occurrences w p.Include + occurrences w kept := by
      intro w
      rw [← occurrences_append]
      exact occurrences_perm w _ _ h8
    refine ⟨ws2, k2, ?_, by rw [h4, h9]; exact hlen0, ?_, hmem2, ?_, ?_⟩
    · rw [h2]
      rfl
    · rw [hsep]
      exact Split_Join c tl ws2 hne2 (fun w hw => hav w (hmem2 w hw))
    · intro w hw
      have := forall2_count_le _ _ w hw _ _ h3
      have := hcount1 w
      omega
    · intro w hw
      have h10 := forall2_count_ge _ _ w hw _ _ h3
      have h11 := hcount1 w
      have h12 : occurrences w kept = 0 :=
        occurrences_zero w kept (fun h => hw (hall0 w (h7.subset h)))
      omega


theorem bind_inv {α β : Type} (m : M α) (f : α → M β) (k : Nat) (r : β × Nat)
    (h : (m >>= f) k = some r) : ∃ a k1, m k = some (a, k1) ∧ f a k1 = some r := by
  cases hm : m k with
  | none =>
    have : (m >>= f) k = none := by
      show (match m k with
        | none => none
        | some (a, k1) => f a k1) = none
      rw [hm]
    rw [this] at h
    exact absurd h (by simp)
  | some x =>
    obtain ⟨a, k1⟩ := x
    exact ⟨a, k1, rfl, by rw [← bind_some m f k k1 a hm]; exact h⟩

theorem fillSecret_inv {E : Type} (gen : M Str) (p q : Passphrase E) (k k0 : Nat)
    (h : fillSecret gen p k = some (q, k0)) : ∃ s, q = { p with Secret := s } := by
  unfold fillSecret at h
  obtain ⟨a, k1, -, h1⟩ := bind_inv _ _ _ _ h
  obtain ⟨ws, k2, -, h2⟩ := bind_inv _ _ _ _ h1
  rw [pure_run] at h2
  simp only [Option.some.injEq, Prod.mk.injEq] at h2
  exact ⟨_, h2.1.symm⟩

/-- A strategy that returns was given a `Length` its `make` accepts. -/
theorem fillSecret_alloc {E : Type} (gen : M Str) (p q : Passphrase E) (k k0 : Nat)
    (hwf : p.Length < 2 ^ 64) (h : fillSecret gen p k = some (q, k0)) :
    16 * p.Length ≤ maxAlloc := by
  unfold fillSecret at h
  obtain ⟨a, k1, h0, -⟩ := bind_inv _ _ _ _ h
  obtain ⟨h1, h2, -, -⟩ := makeSlice_inv _ _ _ _ _ _ h0
  have hL : p.Length < 2 ^ 63 := by
    by_contra hcon
    have := goInt_big p.Length (by omega) hwf
    omega
  rw [goInt_small _ hL] at h2
  simpa using h2

theorem includeWords_inv {E : Type} (rnd : Nat → Nat → Nat) (p q : Passphrase E) (k k0 : Nat)
    (h : includeWords rnd p k = some (q, k0)) :
    ∃ s incl, q = { p with Secret := s, Include := incl } := by
  unfold includeWords at h
  obtain ⟨a1, k1, -, h1⟩ := bind_inv _ _ _ _ h
  obtain ⟨a2, k2, -, h2⟩ := bind_inv _ _ _ _ h1
  obtain ⟨a3, k3, -, h3⟩ := bind_inv _ _ _ _ h2
  obtain ⟨a4, k4, -, h4⟩ := bind_inv _ _ _ _ h3
  rw [pure_run] at h4
  simp only [Option.some.injEq, Prod.mk.injEq] at h4
  exact ⟨_, _, h4.1.symm⟩

theorem excludeWords_inv {E : Type} (env : Env E) (rnd : Nat → Nat → Nat) (m : list)
    (p q : Passphrase E) (k k0 : Nat) (h : excludeWords env rnd p m k = some (q, k0)) :
    ∃ s, q = { p with Secret := s } := by
  unfold excludeWords at h
  obtain ⟨a1, k1, -, h1⟩ := bind_inv _ _ _ _ h
  rw [pure_run] at h1
  simp only [Option.some.injEq, Prod.mk.injEq] at h1
  exact ⟨_, h1.1.symm⟩

/-- What `finish` returns: never an error, the entropy computed on the request
as it stands after the exclude pass, which changes the secret only. -/
theorem finish_inv {E : Type} (env : Env E) (rnd : Nat → Nat → Nat) (q p1 : Passphrase E)
    (e : Option GenError) (k k1 : Nat) (h : finish env rnd q k = some ((e, p1), k1)) :
    e = none ∧ ∃ s, p1 =
      { q with Secret := s, Entropy := entropyBits env { q with Secret := s } (strategy q) } := by
  unfold finish at h
  by_cases he : q.Exclude.length ≠ 0
  · rw [if_pos he] at h
    obtain ⟨q1, k2, h1, h2⟩ := bind_inv _ _ _ _ h
    obtain ⟨s, rfl⟩ := excludeWords_inv env rnd _ q q1 k k2 h1
    simp only [pure_run, Option.some.injEq, Prod.mk.injEq] at h2
    exact ⟨h2.1.1.symm, s, h2.1.2.symm⟩
  · rw [if_neg he] at h
    obtain ⟨q1, k2, h1, h2⟩ := bind_inv _ _ _ _ h
    simp only [pure_run, Option.some.injEq, Prod.mk.injEq] at h1 h2
    obtain ⟨rfl, -⟩ := h1
    exact ⟨h2.1.1.symm, q.Secret, h2.1.2.symm⟩

/-- The shape of `Generate` once the two length checks are passed and the
strategy has produced the draft `q`. -/
theorem Generate_after_draft {E : Type} (env : Env E) (rnd : Nat → Nat → Nat)
    (p q : Passphrase E) (k k0 : Nat) (hn1 : ¬ p.Length < 1)
    (hn2 : ¬ (p.Include.length : Int) > goInt p.Length)
    (hrun : runList env rnd (strategy p) (withDefaults p) k = some (q, k0)) :
    Generate env rnd p k =
      if q.Include.length ≠ 0 then
        match includeError env q with
        | some e => some ((some e, q), k0)
        | none => (includeWords rnd q >>= finish env rnd) k0
      else finish env rnd q k0 := by
  have hstrat : strategy (withDefaults p) = strategy p := by
    rw [withDefaults_eq]
    rfl
  unfold Generate
  rw [if_neg hn1, if_neg hn2]
  show (runList env rnd (strategy (withDefaults p)) (withDefaults p) >>= _) k = _
  rw [hstrat, bind_some _ _ _ _ _ hrun]
  by_cases hi : q.Include.length ≠ 0
  · rw [if_pos hi, if_pos hi]
    cases includeError env q <;> rfl
  · rw [if_neg hi, if_neg hi]

theorem runList_inv {E : Type} (env : Env E) (rnd : Nat → Nat → Nat) (p q : Passphrase E)
    (k k0 : Nat) (h : runList env rnd (strategy p) (withDefaults p) k = some (q, k0)) :
    ∃ s, q = { p with Secret := s, Separator := sepOf p, List := some (strategy p) } := by
  rw [runList_eq, withDefaults_eq] at h
  obtain ⟨s, hs⟩ := fillSecret_inv _ _ _ _ _ h
  exact ⟨s, hs⟩

theorem includeError_secret {E : Type} (env : Env E) (p : Passphrase E) (s : Str) :
    includeError env { p with Secret := s } = includeError env p := rfl

theorem bind_none {α β : Type} (m : M α) (f : α → M β) (k : Nat) (h : m k = none) :
    (m >>= f) k = none := by
  show (match m k with
    | none => none
    | some (a, k1) => f a k1) = none
  rw [h]

theorem Generate_no_draft {E : Type} (env : Env E) (rnd : Nat → Nat → Nat)
    (p : Passphrase E) (k : Nat) (hn1 : ¬ p.Length < 1)
    (hn2 : ¬ (p.Include.length : Int) > goInt p.Length)
    (hrun : runList env rnd (strategy p) (withDefaults p) k = none) :
    Generate env rnd p k = none := by
  have hstrat : strategy (withDefaults p) = strategy p := by
    rw [withDefaults_eq]
    rfl
  unfold Generate
  rw [if_neg hn1, if_neg hn2]
  show (runList env rnd (strategy (withDefaults p)) (withDefaults p) >>= _) k = _
  rw [hstrat]
  exact bind_none _ _ _ hrun

/-- A call of `Generate` that returns past the two length checks was given a
`Length` the strategy could allocate. -/
theorem Generate_alloc {E : Type} (env : Env E) (rnd : Nat → Nat → Nat)
    (p : Passphrase E) (r : (Option GenError × Passphrase E) × Nat) (k : Nat)
    (hwf : p.Length < 2 ^ 64) (hn1 : ¬ p.Length < 1)
    (hn2 : ¬ (p.Include.length : Int) > goInt p.Length)
    (h : Generate env rnd p k = some r) : 16 * p.Length ≤ maxAlloc := by
  cases hrun : runList env rnd (strategy p) (withDefaults p) k with
  | none =>
    rw [Generate_no_draft env rnd p k hn1 hn2 hrun] at h
    exact absurd h (by simp)
  | some r0 =>
    obtain ⟨q, k0⟩ := r0
    rw [runList_eq, withDefaults_eq] at hrun
    exact fillSecret_alloc _ { p with Separator := sepOf p, List := some (strategy p) }
      _ _ _ hwf hrun

/-- The three strategies panic in `make` on a `uint64` `Length` above the
allocation bound. -/
theorem fillSecret_none {E : Type} (gen : M Str) (p : Passphrase E) (k : Nat)
    (hwf : p.Length < 2 ^ 64) (h : maxAlloc < 16 * p.Length) : fillSecret gen p k = none := by
  cases hrun : fillSecret gen p k with
  | none => rfl
  | some r =>
    have := fillSecret_alloc gen p r.1 k r.2 hwf hrun
    omega

/-- Past its two length checks, `Generate` panics in the strategy on a `Length`
above the allocation bound, whatever the include words. -/
theorem Generate_none {E : Type} (env : Env E) (rnd : Nat → Nat → Nat)
    (p : Passphrase E) (k : Nat) (h1 : 1 ≤ p.Length)
    (h2 : (p.Include.length : Int) ≤ goInt p.Length) (hwf : p.Length < 2 ^ 64)
    (h : maxAlloc < 16 * p.Length) : Generate env rnd p k = none := by
  refine Generate_no_draft env rnd p k (by omega) (by omega) ?_
  rw [runList_eq, withDefaults_eq]
  exact fillSecret_none _ { p with Separator := sepOf p, List := some (strategy p) } k hwf h

theorem includeError_cases {E : Type} (env : Env E) (q : Passphrase E) (e : GenError)
    (h : includeError env q = some e) :
    (∃ x, e = .includedAndExcluded x) ∨ e = .invalidCharacters := by
  unfold includeError at h
  simp only [] at h
  split at h
  · simp only [Option.some.injEq] at h
    exact Or.inl ⟨_, h.symm⟩
  · split at h
    · simp only [Option.some.injEq] at h
      exact Or.inr h.symm
    · exact absurd h (by simp)

/-- Every return of `Generate`, by the error returned: a length error leaves
the request and the random source untouched; an overlap or character error
returns the request as the strategy left it, draft secret included; a success
has passed the four checks and carries the entropy of the final request. -/
theorem Generate_return {E : Type} (env : Env E) (rnd : Nat → Nat → Nat)
    (p p1 : Passphrase E) (e : Option GenError) (k k1 : Nat)
    (h : Generate env rnd p k = some ((e, p1), k1)) :
    ((e = some .lengthTooLow ∨ e = some .includeExceeds) ∧ p1 = p ∧ k1 = k) ∨
    (((∃ x, e = some (.includedAndExcluded x)) ∨ e = some .invalidCharacters) ∧
      1 ≤ p.Length ∧ (p.Include.length : Int) ≤ goInt p.Length ∧ p.Include ≠ [] ∧
      includeError env (withDefaults p) = e ∧
      runList env rnd (strategy p) (withDefaults p) k = some (p1, k1)) ∨
    (e = none ∧ 1 ≤ p.Length ∧ (p.Include.length : Int) ≤ goInt p.Length ∧
      (p.Include ≠ [] → includeError env (withDefaults p) = none) ∧
      p1.Length = p.Length ∧ p1.Separator = sepOf p ∧ p1.List = some (strategy p) ∧
      p1.Exclude = p.Exclude ∧ p1.Entropy = entropyBits env p1 (strategy p) ∧
      (p.Include = [] → p1.Include = [])) := by
  by_cases hn1 : p.Length < 1
  · unfold Generate at h
    rw [if_pos hn1, pure_run] at h
    simp only [Option.some.injEq, Prod.mk.injEq] at h
    exact Or.inl ⟨Or.inl h.1.1.symm, h.1.2.symm, h.2.symm⟩
  by_cases hn2 : (p.Include.length : Int) > goInt p.Length
  · unfold Generate at h
    rw [if_neg hn1, if_pos hn2, pure_run] at h
    simp only [Option.some.injEq, Prod.mk.injEq] at h
    exact Or.inl ⟨Or.inr h.1.1.symm, h.1.2.symm, h.2.symm⟩
  have h1 : 1 ≤ p.Length := by omega
  have h2 : (p.Include.length : Int) ≤ goInt p.Length := by omega
  cases hrun : runList env rnd (strategy p) (withDefaults p) k with
  | none =>
    rw [Generate_no_draft env rnd p k hn1 hn2 hrun] at h
    exact absurd h (by simp)
  | some r =>
    obtain ⟨q, k0⟩ := r
    rw [Generate_after_draft env rnd p q k k0 hn1 hn2 hrun] at h
    obtain ⟨s, hq⟩ := runList_inv env rnd p q k k0 hrun
    have hqi : q.Include = p.Include := by rw [hq]
    have herr : includeError env q = includeError env (withDefaults p) := by
      rw [hq, withDefaults_eq]
      rfl
    by_cases hi : q.Include.length ≠ 0
    · have hpi : p.Include ≠ [] := by
        intro h3
        rw [hqi, h3] at hi
        exact hi rfl
      rw [if_pos hi] at h
      cases hie : includeError env q with
      | some e0 =>
        rw [hie] at h
        simp only [Option.some.injEq, Prod.mk.injEq] at h
        obtain ⟨⟨h3, h4⟩, h5⟩ := h
        refine Or.inr (Or.inl ⟨?_, h1, h2, hpi, ?_, ?_⟩)
        · rcases includeError_cases env q e0 hie with ⟨x, hx⟩ | hx
          · exact Or.inl ⟨x, by rw [← h3, hx]⟩
          · exact Or.inr (by rw [← h3, hx])
        · rw [← herr, hie, h3]
        · rw [← h4, ← h5]
      | none =>
        rw [hie] at h
        simp only [] at h
        obtain ⟨q2, k2, h3, h4⟩ := bind_inv _ _ _ _ h
        obtain ⟨s2, incl2, hq2⟩ := includeWords_inv rnd q q2 k0 k2 h3
        obtain ⟨h5, s3, h6⟩ := finish_inv env rnd q2 p1 e k2 k1 h4
        refine Or.inr (Or.inr ⟨h5, h1, h2, fun _ => by rw [← herr, hie], ?_⟩)
        rw [h6, hq2, hq]
        exact ⟨rfl, rfl, rfl, rfl, rfl, fun h7 => absurd h7 hpi⟩
    · have hpi : p.Include = [] := by
        rw [← hqi]
        exact List.length_eq_zero.mp (not_not.mp hi)
      rw [if_neg hi] at h
      obtain ⟨h5, s3, h6⟩ := finish_inv env rnd q p1 e k0 k1 h
      refine Or.inr (Or.inr ⟨h5, h1, h2, fun h7 => absurd hpi h7, ?_⟩)
      rw [h6, hq]
      exact ⟨rfl, rfl, rfl, rfl, rfl, fun h7 => h7⟩

/-! ## `strings.Contains` -/

theorem Contains_iff (s sub : Str) : Contains s sub = true ↔ sub <:+: s := by
  induction s with
  | nil =>
    cases sub with
    | nil => simp [Contains]
    | cons a sub => simp [Contains]
  | cons c cs ih =>
    rw [Contains, Bool.or_eq_true, ih, List.isPrefixOf_iff_prefix, List.infix_cons_iff]

theorem mem_infix_Join (ws : List Str) (sep w : Str) (h : w ∈ ws) : w <:+: Join ws sep := by
  induction ws with
  | nil => simp at h
  | cons a ws ih =>
    cases ws with
    | nil =>
      simp only [List.mem_singleton] at h
      subst h
      exact List.infix_refl _
    | cons b ws =>
      rw [Join_cons_cons]
      rcases List.mem_cons.mp h with rfl | h2
      · exact ⟨[], sep ++ Join (b :: ws) sep, by simp⟩
      · exact (ih h2).trans ⟨a ++ sep, [], by simp⟩

theorem includeError_none {E : Type} (env : Env E) (q : Passphrase E)
    (h : includeError env q = none) :
    (∀ excl ∈ q.Exclude, ¬ excl <:+: Join q.Include q.Separator) ∧
      ∀ w ∈ q.Include, invalidWord (env.normalize w) = false := by
  unfold includeError at h
  simp only [] at h
  split at h
  · exact absurd h (by simp)
  · rename_i hfind
    split at h
    · exact absurd h (by simp)
    · rename_i hany
      refine ⟨?_, ?_⟩
      · intro excl hex hin
        rw [List.find?_eq_none] at hfind
        exact hfind excl hex ((Contains_iff _ _).mpr hin)
      · intro w hw
        simp only [List.any_eq_true, not_exists, not_and, Bool.not_eq_true] at hany
        exact hany w hw

theorem includeError_overlap {E : Type} (env : Env E) (q : Passphrase E) (excl : Str)
    (hex : excl ∈ q.Exclude) (hin : excl <:+: Join q.Include q.Separator) :
    ∃ x, x ∈ q.Exclude ∧ includeError env q = some (.includedAndExcluded x) := by
  unfold includeError
  simp only []
  cases hfind : q.Exclude.find? (fun excl => Contains (Join q.Include q.Separator) excl) with
  | none =>
    rw [List.find?_eq_none] at hfind
    exact absurd ((Contains_iff _ _).mpr hin) (hfind excl hex)
  | some x => exact ⟨x, List.mem_of_find?_eq_some hfind, rfl⟩

theorem includeError_invalid {E : Type} (env : Env E) (q : Passphrase E)
    (hover : ∀ excl ∈ q.Exclude, ¬ excl <:+: Join q.Include q.Separator) (w : Str)
    (hw : w ∈ q.Include) (c : Char) (hc : c ∈ env.normalize w) (hg : isGraph c = false) :
    includeError env q = some .invalidCharacters := by
  unfold includeError
  simp only []
  cases hfind : q.Exclude.find? (fun excl => Contains (Join q.Include q.Separator) excl) with
  | some x =>
    have h1 := List.mem_of_find?_eq_some hfind
    have h2 := List.find?_some hfind
    exact absurd ((Contains_iff _ _).mp h2) (hover x h1)
  | none =>
    have hany : (q.Include.any fun word => invalidWord (env.normalize word)) = true := by
      rw [List.any_eq_true]
      refine ⟨w, hw, ?_⟩
      unfold invalidWord
      rw [List.any_eq_true]
      exact ⟨c, hc, by simp [hg]⟩
    simp only [hany, if_true]

/-! ## Auxiliary facts for the statements -/

theorem tape_valid (vs : List Nat) : ValidRnd (tape vs) := by
  intro k n hn
  exact Nat.mod_lt _ hn

theorem goInt_le (x : Nat) : goInt x ≤ (x : Int) := by
  have h3 : x % 2 ^ 64 ≤ x := Nat.mod_le _ _
  unfold goInt
  split <;> omega

theorem utf8Size_ascii (c : Char) (h : c.toNat < 128) : c.utf8Size = 1 := by
  unfold Char.utf8Size
  have h2 : c.val ≤ UInt32.ofNatCore 127 (by decide) := by
    rw [UInt32.le_def]
    show c.val.toNat ≤ 127
    have : c.toNat = c.val.toNat := rfl
    omega
  show (if c.val ≤ UInt32.ofNatCore 127 _ then 1 else _) = 1
  rw [if_pos h2]

/-- On ASCII text the number of bytes is the number of characters. -/
theorem goLen_ascii (s : Str) (h : ∀ c ∈ s, c.toNat < 128) : goLen s = s.length := by
  induction s with
  | nil => rfl
  | cons c s ih =>
    have h1 := utf8Size_ascii c (h c (by simp))
    have h2 := ih (fun x hx => h x (by simp [hx]))
    unfold goLen at h2 ⊢
    simp only [List.map_cons, List.sum_cons, List.length_cons, h1, h2]
    omega

theorem letter_range (c : Char) (h : IsLetter c) : 97 ≤ c.toNat ∧ c.toNat ≤ 122 := by
  unfold IsLetter at h
  simp only [vowels, constants, List.cons_append, List.nil_append, List.mem_cons,
    List.cons.injEq, and_true, List.not_mem_nil, or_false] at h
  rcases h with h | h | h | h | h | h | h | h | h | h | h | h | h | h | h | h | h | h | h
    | h | h | h | h | h | h | h <;> subst h <;> decide

/-- Pseudo-words are not empty and avoid a separator that does not start with
a lowercase letter. -/
theorem pseudoWord_avoids {E : Type} (env : Env E) (sep : Str)
    (h : ∀ c, sep.head? = some c → c.toNat < 97 ∨ 122 < c.toNat) (w : Str)
    (hw : Producible env .NoList w) : w ≠ [] ∧ AvoidsSep sep w := by
  obtain ⟨h1, -, h3⟩ := hw
  refine ⟨?_, ?_⟩
  · intro h4
    rw [h4] at h1
    simp at h1
  · intro c hc hin
    have := letter_range c (h3 c hin)
    have := h c hc
    omega

/-- A character outside the printable ASCII range, space to `~`, is outside
`[:graph:]`. -/
theorem not_printable_not_graph (c : Char) (h : c.toNat < 0x20 ∨ 0x7E < c.toNat) :
    isGraph c = false := by
  unfold isGraph
  rcases h with h | h
  · have : ¬ (0x21 ≤ c.toNat) := by omega
    simp [this]
  · have : ¬ (c.toNat ≤ 0x7E) := by omega
    simp [this]

theorem occurrences_nodup (w : Str) (ws : List Str) (hnd : ws.Nodup) (hw : w ∈ ws) :
    occurrences w ws = 1 := by
  induction ws with
  | nil => simp at hw
  | cons a ws ih =>
    have hnd1 := List.nodup_cons.mp hnd
    rw [occurrences_cons]
    by_cases h : a = w
    · subst h
      rw [if_pos rfl, occurrences_zero a ws hnd1.1]
    · rw [if_neg h]
      have : w ∈ ws := by
        rcases List.mem_cons.mp hw with h2 | h2
        · exact absurd h2.symm h
        · exact h2
      rw [ih hnd1.2 this]

theorem occurrences_pos (w : Str) (ws : List Str) (hw : w ∈ ws) : 1 ≤ occurrences w ws := by
  induction ws with
  | nil => simp at hw
  | cons a ws ih =>
    rw [occurrences_cons]
    by_cases h : a = w
    · rw [if_pos h]; omega
    · rw [if_neg h]
      have : w ∈ ws := by
        rcases List.mem_cons.mp hw with h2 | h2
        · exact absurd h2.symm h
        · exact h2
      have := ih this
      omega

/-- A successful `Generate` on a request whose tokens avoid the first character
of the separator is the run described by `Generate_run`. -/
theorem Generate_success_tokens {E : Type} (env : Env E) (rnd : Nat → Nat → Nat)
    (hv : ValidRnd rnd) (p p1 : Passphrase E) (k k1 : Nat) (hwf : p.Length < 2 ^ 64)
    (hd : DictReady env (strategy p))
    (hc : ∀ w, Producible env (strategy p) w ∨ w ∈ p.Include → AvoidsSep (sepOf p) w)
    (h : Generate env rnd p k = some ((none, p1), k1)) :
    ∃ ws, p1 = finalState env p ws ∧ ws.length = p.Length ∧
      Split p1.Secret p1.Separator = ws ∧
      (∀ w ∈ ws, Producible env (strategy p) w ∨ w ∈ p.Include) ∧
      (∀ w, w ∉ p.Exclude → occurrences w p.Include ≤ occurrences w ws) ∧
      (∀ w, ¬ Producible env (strategy p) w → occurrences w ws ≤ occurrences w p.Include) := by
  rcases Generate_return env rnd p p1 none k k1 h with h0 | h0 | h0
  · rcases h0.1 with h2 | h2 <;> exact absurd h2 (by simp)
  · rcases h0.1 with ⟨x, h2⟩ | h2 <;> exact absurd h2 (by simp)
  · obtain ⟨-, h1, h2, herr, -⟩ := h0
    have hL : p.Length < 2 ^ 63 := by
      by_contra hcon
      have := goInt_big p.Length (by omega) hwf
      omega
    have hlen : p.Include.length ≤ p.Length := by
      rw [goInt_small _ hL] at h2
      omega
    have hA : 16 * p.Length ≤ maxAlloc :=
      Generate_alloc env rnd p _ k hwf (by omega) (by omega) h
    obtain ⟨ws, k2, h3, h4, h5, h6, h7, h8⟩ :=
      Generate_run env rnd hv p k h1 hA hlen hd hc herr
    rw [h] at h3
    simp only [Option.some.injEq, Prod.mk.injEq, true_and] at h3
    refine ⟨ws, h3.1, h4, ?_, h6, h7, h8⟩
    rw [h3.1]
    exact h5

/-! ## C1: the secret splits into `Length` non-empty tokens -/

/-- C1, as stated, fails: with `NoList`, `Length = 1` and the separator `"a"`,
the source that always answers 0 yields the secret `"aaa"`, which splits on
`"a"` into four empty tokens. -/
theorem C1_counterexample :
    ValidRnd (tape []) ∧
      Generate envT (tape []) ⟨[], 1, ['a'], some .NoList, [], [], (0, 0)⟩ 0 =
        some ((none, ⟨['a', 'a', 'a'], 1, ['a'], some .NoList, [], [], (27, 3)⟩), 7) ∧
      Split ['a', 'a', 'a'] ['a'] = [[], [], [], []] :=
  ⟨tape_valid [], by decide, by decide⟩

/-- C1, amended: when the first character of the separator in force occurs in
no token the strategy can produce and in no include word, and none of these
is empty, then after a successful `Generate` splitting `Secret` on `Separator`
yields exactly `Length` tokens, each of them non-empty. -/
theorem C1_split_tokens {E : Type} (env : Env E) (rnd : Nat → Nat → Nat) (hv : ValidRnd rnd)
    (p p1 : Passphrase E) (k k1 : Nat) (hwf : p.Length < 2 ^ 64)
    (hd : DictReady env (strategy p))
    (hc : ∀ w, Producible env (strategy p) w ∨ w ∈ p.Include → w ≠ [] ∧ AvoidsSep (sepOf p) w)
    (h : Generate env rnd p k = some ((none, p1), k1)) :
    (Split p1.Secret p1.Separator).length = p.Length ∧
      ∀ t ∈ Split p1.Secret p1.Separator, t ≠ [] := by
  obtain ⟨ws, -, h2, h3, h4, -, -⟩ :=
    Generate_success_tokens env rnd hv p p1 k k1 hwf hd (fun w hw => (hc w hw).2) h
  rw [h3]
  exact ⟨h2, fun t ht => (hc t (h4 t ht)).1⟩

theorem C1_split_tokens_witness :
    (Split "correct+ter+ter".toList "+".toList).length = 3 ∧
      ∀ t ∈ Split "correct+ter+ter".toList "+".toList, t ≠ [] :=
  C1_split_tokens envT (tape [0, 1, 2, 0, 0, 1]) (tape_valid _)
    ⟨[], 3, "+".toList, some .SyllableList, ["correct".toList], ["ba".toList], (0, 0)⟩
    ⟨"correct+ter+ter".toList, 3, "+".toList, some .SyllableList, [], ["ba".toList], (1, 15)⟩
    0 6 (by decide) (by simp [DictReady, strategy, envT])
    (by
      intro w hw
      have hw2 : w = "ba".toList ∨ w = "ter".toList ∨ w = "correct".toList := by
        rcases hw with hw | hw
        · have : w = "ba".toList ∨ w = "ter".toList := by
            simpa [Producible, strategy, envT] using hw
          rcases this with h | h
          · exact Or.inl h
          · exact Or.inr (Or.inl h)
        · simp only [List.mem_singleton] at hw
          exact Or.inr (Or.inr hw)
      rcases hw2 with rfl | rfl | rfl <;> refine ⟨by decide, ?_⟩ <;>
        · intro c hc
          simp only [sepOf] at hc
          have hc2 : c = '+' := by simpa using hc.symm
          subst hc2
          decide)
    (by decide)

/-! ## C2: the include words among the tokens -/

/-- C2, as stated, fails: with `Length = 2`, `Include = ["aaa"]` and the default
strategy, the source that always answers 0 yields the final secret `"aaa aaa"`:
the include word is a token twice, once written by the include pass and once
generated. -/
theorem C2_counterexample :
    ValidRnd (tape []) ∧
      Generate envT (tape []) ⟨[], 2, [], none, [['a', 'a', 'a']], [], (0, 0)⟩ 0 =
        some ((none, ⟨"aaa aaa".toList, 2, [' '], some .NoList, [], [], (27, 7)⟩), 16) ∧
      occurrences ['a', 'a', 'a'] (Split "aaa aaa".toList [' ']) = 2 :=
  ⟨tape_valid [], by decide, by decide⟩

/-- C2, amended: when the first character of the separator in force occurs in
no token the strategy can produce and in no include word, then after a
successful `Generate` every include word is a whole token of the final secret
at least as many times as it is listed in `Include`, hence at least once; it
is a token exactly that many times when the strategy cannot produce it, and
exactly once when moreover the include words are pairwise distinct. -/
theorem C2_include_tokens {E : Type} (env : Env E) (rnd : Nat → Nat → Nat) (hv : ValidRnd rnd)
    (p p1 : Passphrase E) (k k1 : Nat) (hwf : p.Length < 2 ^ 64)
    (hd : DictReady env (strategy p))
    (hc : ∀ w, Producible env (strategy p) w ∨ w ∈ p.Include → AvoidsSep (sepOf p) w)
    (h : Generate env rnd p k = some ((none, p1), k1)) :
    ∀ w ∈ p.Include,
      occurrences w p.Include ≤ occurrences w (Split p1.Secret p1.Separator) ∧
      1 ≤ occurrences w (Split p1.Secret p1.Separator) ∧
      (¬ Producible env (strategy p) w →
        occurrences w (Split p1.Secret p1.Separator) = occurrences w p.Include) ∧
      (¬ Producible env (strategy p) w → p.Include.Nodup →
        occurrences w (Split p1.Secret p1.Separator) = 1) := by
  intro w hw
  obtain ⟨ws, -, -, h3, -, h5, h6⟩ :=
    Generate_success_tokens env rnd hv p p1 k k1 hwf hd hc h
  have hne : p.Include ≠ [] := fun h0 => by rw [h0] at hw; simp at hw
  have hnex : w ∉ p.Exclude := by
    rcases Generate_return env rnd p p1 none k k1 h with h0 | h0 | h0
    · rcases h0.1 with h2 | h2 <;> exact absurd h2 (by simp)
    · rcases h0.1 with ⟨x, h2⟩ | h2 <;> exact absurd h2 (by simp)
    · have herr := h0.2.2.2.1 hne
      have hover := (includeError_none env (withDefaults p) herr).1
      intro hex
      refine hover w (by rw [withDefaults_eq]; exact hex) ?_
      exact mem_infix_Join _ _ w (by rw [withDefaults_eq]; exact hw)
  rw [h3]
  have h7 := h5 w hnex
  have h8 := occurrences_pos w p.Include hw
  refine ⟨h7, by omega, fun hp => ?_, fun hp hnd => ?_⟩
  · have := h6 w hp
    omega
  · have := h6 w hp
    have := occurrences_nodup w p.Include hnd hw
    omega

theorem C2_include_tokens_witness :
    occurrences "correct".toList ["correct".toList, "horse".toList] ≤
        occurrences "correct".toList (Split "eee-horse-iii-correct".toList "-".toList) ∧
      1 ≤ occurrences "correct".toList (Split "eee-horse-iii-correct".toList "-".toList) ∧
      (¬ Producible envT .NoList "correct".toList →
        occurrences "correct".toList (Split "eee-horse-iii-correct".toList "-".toList) =
          occurrences "correct".toList ["correct".toList, "horse".toList]) ∧
      (¬ Producible envT .NoList "correct".toList →
        ["correct".toList, "horse".toList].Nodup →
        occurrences "correct".toList (Split "eee-horse-iii-correct".toList "-".toList) = 1) :=
  C2_include_tokens envT
    (tape [0, 0, 1, 0, 1, 0, 1, 0, 0, 0, 0, 0, 0, 0, 0, 0, 2, 0, 2, 0, 2, 0, 0, 0, 0, 0, 0, 0,
      3, 1, 1, 0])
    (tape_valid _)
    ⟨[], 4, "-".toList, some .NoList, ["correct".toList, "horse".toList], [], (0, 0)⟩
    ⟨"eee-horse-iii-correct".toList, 4, "-".toList, some .NoList, [], [], (27, 21)⟩
    0 32 (by decide) (by simp [DictReady, strategy])
    (by
      intro w hw
      rcases hw with hw | hw
      · exact (pseudoWord_avoids envT "-".toList (by
          intro c hc
          have hc2 : c = '-' := by simpa using hc.symm
          subst hc2
          decide) w hw).2
      · have hw2 : w = "correct".toList ∨ w = "horse".toList := by simpa using hw
        rcases hw2 with rfl | rfl <;>
          · intro c hc
            simp only [sepOf] at hc
            have hc2 : c = '-' := by simpa using hc.symm
            subst hc2
            decide)
    (by decide) "correct".toList (by simp)

/-! ## C3: what an error leaves behind -/

/-- C3, as stated, fails: with `Length = 1` and the word `"x"` both included and
excluded, `Generate` returns the overlap error after the strategy has run:
seven values of the random source are consumed and `Secret`, empty before the
call, holds the draft `"aaa"`. -/
theorem C3_counterexample :
    ValidRnd (tape []) ∧
      Generate envT (tape []) ⟨[], 1, [], none, [['x']], [['x']], (0, 0)⟩ 0 =
        some ((some (.includedAndExcluded ['x']),
          ⟨['a', 'a', 'a'], 1, [' '], some .NoList, [['x']], [['x']], (0, 0)⟩), 7) :=
  ⟨tape_valid [], by decide⟩

/-- C3, amended: when `Generate` returns one of the two length errors, no value
of the random source has been consumed and the request is unchanged; when it
returns the overlap or the character error, the request is the one the
strategy left (defaults set, `Secret` holding the draft, the values of the
generation consumed), and `Length`, `Include`, `Exclude` and `Entropy` are
unchanged. -/
theorem C3_error_states {E : Type} (env : Env E) (rnd : Nat → Nat → Nat)
    (p p1 : Passphrase E) (err : GenError) (k k1 : Nat)
    (h : Generate env rnd p k = some ((some err, p1), k1)) :
    ((err = .lengthTooLow ∨ err = .includeExceeds) ∧ p1 = p ∧ k1 = k) ∨
    (((∃ x, err = .includedAndExcluded x) ∨ err = .invalidCharacters) ∧
      runList env rnd (strategy p) (withDefaults p) k = some (p1, k1) ∧
      p1.Length = p.Length ∧ p1.Include = p.Include ∧ p1.Exclude = p.Exclude ∧
      p1.Entropy = p.Entropy) := by
  rcases Generate_return env rnd p p1 (some err) k k1 h with h0 | h0 | h0
  · refine Or.inl ⟨?_, h0.2⟩
    rcases h0.1 with h2 | h2
    · exact Or.inl (Option.some.inj h2)
    · exact Or.inr (Option.some.inj h2)
  · obtain ⟨h2, -, -, -, -, hrun⟩ := h0
    obtain ⟨s, hs⟩ := runList_inv env rnd p p1 k k1 hrun
    refine Or.inr ⟨?_, hrun, by rw [hs], by rw [hs], by rw [hs], by rw [hs]⟩
    rcases h2 with ⟨x, h3⟩ | h3
    · exact Or.inl ⟨x, Option.some.inj h3⟩
    · exact Or.inr (Option.some.inj h3)
  · exact absurd h0.1 (by simp)

theorem C3_error_states_witness :
    ((GenError.invalidCharacters = .lengthTooLow ∨ GenError.invalidCharacters = .includeExceeds) ∧
        (⟨"horse+correct".toList, 2, ['+'], some .WordList, ["a b".toList], [], (0, 0)⟩ :
            Passphrase (Int × Int)) =
          ⟨[], 2, ['+'], some .WordList, ["a b".toList], [], (0, 0)⟩ ∧ 2 = 0) ∨
      (((∃ x, GenError.invalidCharacters = .includedAndExcluded x) ∨
          GenError.invalidCharacters = .invalidCharacters) ∧
        runList envT (tape [1])
            (strategy (⟨[], 2, ['+'], some .WordList, ["a b".toList], [], (0, 0)⟩ :
              Passphrase (Int × Int)))
            (withDefaults ⟨[], 2, ['+'], some .WordList, ["a b".toList], [], (0, 0)⟩) 0 =
          some (⟨"horse+correct".toList, 2, ['+'], some .WordList, ["a b".toList], [], (0, 0)⟩,
            2) ∧
        2 = 2 ∧ ["a b".toList] = ["a b".toList] ∧ ([] : List Str) = [] ∧
        ((0, 0) : Int × Int) = (0, 0)) :=
  C3_error_states envT (tape [1])
    ⟨[], 2, ['+'], some .WordList, ["a b".toList], [], (0, 0)⟩
    ⟨"horse+correct".toList, 2, ['+'], some .WordList, ["a b".toList], [], (0, 0)⟩
    .invalidCharacters 0 2 (by decide)

/-! ## C4: the pool size and the include list -/

/-- C4 at a failing input: with `Length = 1`, `Include = ["x"]` and no excluded
word, `Generate` passes the pool size 27 to `calculateEntropy`, the base 26 + 1
with nothing added for the include word, because the include pass has emptied
`p.Include`; with the list the caller supplied the pool size would be 28. -/
theorem C4_failing_input :
    Generate envT (tape []) ⟨[], 1, [], none, [['x']], [], (0, 0)⟩ 0 =
        some ((none, ⟨['x'], 1, [' '], some .NoList, [], [], (27, 1)⟩), 9) ∧
      entropyBits envT ⟨['x'], 1, [' '], some .NoList, [['x']], [], (0, 0)⟩ .NoList = (28, 1) := by
  decide

/-! ## C5: a word both included and excluded -/

/-- C5 as worded fails: with `Length = 2 ^ 62`, the include word `x` and the
exclude word `x`, the request meets `Length ≥ 1` and `1 ≤ |Include| ≤ Length` and
the exclude word is a substring of the joined include words, yet `Generate`
returns nothing, no error either: the strategy runs before the overlap check
and its `make` of `2 ^ 62` strings panics. -/
theorem C5_counterexample :
    Generate envT (tape []) ⟨[], 2 ^ 62, [], none, [['x']], [['x']], (0, 0)⟩ 0 = none ∧
      Contains (Join [['x']] [' ']) ['x'] = true ∧
      sepOf (⟨[], 2 ^ 62, [], none, [['x']], [['x']], (0, 0)⟩ : Passphrase (Int × Int)) = [' '] := by
  decide

/-- C5, amended: on a request with `Length ≥ 1`, `1 ≤ |Include| ≤ Length` and a
`Length` whose slice of strings the strategy can allocate, if some word
of `Exclude` is a substring of the include words joined by the separator in
force, `Generate` returns an error; and whenever `Generate` succeeds, no word
of `Include` is in `Exclude`.  Above that `Length` and below `2 ^ 63` the call
panics (`Generate_none`). -/
theorem C5_overlap_rejected {E : Type} (env : Env E) (rnd : Nat → Nat → Nat)
    (p : Passphrase E) (k : Nat) :
    (ValidRnd rnd → DictReady env (strategy p) → 1 ≤ p.Length → 1 ≤ p.Include.length →
      p.Include.length ≤ p.Length → 16 * p.Length ≤ maxAlloc →
      (∃ excl ∈ p.Exclude, excl <:+: Join p.Include (sepOf p)) →
      ∃ err p1 k1, Generate env rnd p k = some ((some err, p1), k1)) ∧
    (∀ p1 k1, Generate env rnd p k = some ((none, p1), k1) →
      ∀ w ∈ p.Include, w ∉ p.Exclude) := by
  refine ⟨?_, ?_⟩
  · intro hv hd h1 hi hlen hA hex
    obtain ⟨excl, hex1, hex2⟩ := hex
    have hn1 : ¬ p.Length < 1 := by omega
    by_cases hn2 : (p.Include.length : Int) > goInt p.Length
    · refine ⟨.includeExceeds, p, k, ?_⟩
      unfold Generate
      rw [if_neg hn1, if_pos hn2]
      rfl
    · obtain ⟨ws, k0, h0, -, -⟩ :=
        fillSecret_run (token env rnd (strategy p)) (Producible env (strategy p))
          (token_yields env rnd hv (strategy p) hd)
          { p with Separator := sepOf p, List := some (strategy p) } k hA
      have hrun : runList env rnd (strategy p) (withDefaults p) k = some
          ({ p with Secret := Join ws (sepOf p), Separator := sepOf p,
                    List := some (strategy p) }, k0) := by
        rw [runList_eq, withDefaults_eq]
        exact h0
      obtain ⟨x, -, hx⟩ := includeError_overlap env
        { p with Secret := Join ws (sepOf p), Separator := sepOf p, List := some (strategy p) }
        excl hex1 hex2
      have hi2 : p.Include.length ≠ 0 := by omega
      refine ⟨.includedAndExcluded x,
        { p with Secret := Join ws (sepOf p), Separator := sepOf p, List := some (strategy p) },
        k0, ?_⟩
      rw [Generate_after_draft env rnd p _ k k0 hn1 hn2 hrun, if_pos hi2]
      simp only [hx]
  · intro p1 k1 h w hw hex
    have hne : p.Include ≠ [] := fun h0 => by rw [h0] at hw; simp at hw
    rcases Generate_return env rnd p p1 none k k1 h with h0 | h0 | h0
    · rcases h0.1 with h2 | h2 <;> exact absurd h2 (by simp)
    · rcases h0.1 with ⟨x, h2⟩ | h2 <;> exact absurd h2 (by simp)
    · have herr := h0.2.2.2.1 hne
      have hover := (includeError_none env (withDefaults p) herr).1
      refine hover w (by rw [withDefaults_eq]; exact hex) ?_
      exact mem_infix_Join _ _ w (by rw [withDefaults_eq]; exact hw)

theorem C5_overlap_rejected_witness :
    (∃ err p1 k1,
      Generate envT (tape []) ⟨[], 2, "-".toList, some .WordList,
        ["cat".toList, "dog".toList], ["t-d".toList], (0, 0)⟩ 0 = some ((some err, p1), k1)) ∧
    ∀ w ∈ ["cat".toList], w ∉ ["dog".toList] :=
  ⟨(C5_overlap_rejected envT (tape []) ⟨[], 2, "-".toList, some .WordList,
      ["cat".toList, "dog".toList], ["t-d".toList], (0, 0)⟩ 0).1 (tape_valid _)
      (by simp [DictReady, strategy, envT]) (by decide) (by decide) (by decide) (by decide)
      ⟨"t-d".toList, by simp, (Contains_iff _ _).mp (by decide)⟩,
   (C5_overlap_rejected envT (tape []) ⟨[], 1, [], none, ["cat".toList], ["dog".toList],
      (0, 0)⟩ 0).2 ⟨"cat".toList, 1, [' '], some .NoList, [], ["dog".toList], (26, 3)⟩ 9
      (by decide)⟩

/-! ## C6 and C7: the two length checks -/

/-- C6: when `Include` has more words than `Length`, `Generate` returns an error
and performs no generation: no value of the random source is consumed and the
request, `Secret` and `Entropy` included, is unchanged. -/
theorem C6_include_exceeds {E : Type} (env : Env E) (rnd : Nat → Nat → Nat)
    (p : Passphrase E) (k : Nat) (h : p.Length < p.Include.length) :
    Generate env rnd p k =
      some ((some (if p.Length < 1 then .lengthTooLow else .includeExceeds), p), k) := by
  unfold Generate
  by_cases hn1 : p.Length < 1
  · rw [if_pos hn1, if_pos hn1]
    rfl
  · have hn2 : (p.Include.length : Int) > goInt p.Length := by
      have := goInt_le p.Length
      omega
    rw [if_neg hn1, if_pos hn2, if_neg hn1]
    rfl

theorem C6_include_exceeds_witness :
    Generate envT (tape [5, 6]) ⟨['s'], 1, [], some .WordList, [['x'], ['y']], [], (3, 4)⟩ 2 =
      some ((some .includeExceeds,
        ⟨['s'], 1, [], some .WordList, [['x'], ['y']], [], (3, 4)⟩), 2) :=
  C6_include_exceeds envT (tape [5, 6])
    ⟨['s'], 1, [], some .WordList, [['x'], ['y']], [], (3, 4)⟩ 2 (by decide)

/-- C7: with `Length = 0`, `Generate` returns an error before any generation (no
value of the random source consumed, request unchanged), and `NewPassphrase(0, l)`
returns the empty string and an error for every `l`. -/
theorem C7_length_zero {E : Type} (env : Env E) (rnd : Nat → Nat → Nat)
    (p : Passphrase E) (k : Nat) (h : p.Length = 0) :
    Generate env rnd p k = some ((some .lengthTooLow, p), k) ∧
      ∀ l, NewPassphrase env rnd 0 l k = some (([], some .lengthTooLow), k) := by
  refine ⟨?_, fun l => ?_⟩
  · unfold Generate
    rw [if_pos (by omega)]
    rfl
  · rfl

theorem C7_length_zero_witness :
    Generate envT (tape [1]) ⟨['s'], 0, ['-'], some .SyllableList, [['x']], [['y']], (3, 4)⟩ 5 =
        some ((some .lengthTooLow,
          ⟨['s'], 0, ['-'], some .SyllableList, [['x']], [['y']], (3, 4)⟩), 5) ∧
      ∀ l, NewPassphrase envT (tape [1]) 0 l 5 = some (([], some .lengthTooLow), 5) :=
  C7_length_zero envT (tape [1])
    ⟨['s'], 0, ['-'], some .SyllableList, [['x']], [['y']], (3, 4)⟩ 5 rfl

/-! ## C8: a character outside `[:graph:]` in a normalized include word -/

/-- C8 as worded fails: with `Length = 2 ^ 62` and the single include word made
of the control character 7, the request passes the length, include-count and
overlap checks (the error computed from the include words is the character
error), yet `Generate` returns nothing, no error either: the strategy runs
before the character check and its `make` of `2 ^ 62` strings panics. -/
theorem C8_counterexample :
    Generate envT (tape []) ⟨[], 2 ^ 62, [], none, [[Char.ofNat 7]], [], (0, 0)⟩ 0 = none ∧
      includeError envT (withDefaults ⟨[], 2 ^ 62, [], none, [[Char.ofNat 7]], [], (0, 0)⟩) =
        some .invalidCharacters ∧
      ((1 : Int) ≤ goInt (2 ^ 62)) := by
  decide

/-- C8, amended: on a request that passes the length, include-count and overlap
checks and whose `Length` is one the strategy can allocate a slice of strings
for, if the normalized form of some include word contains a character outside `!`
to `~` (so any non-printable character, a control character for one, see
`not_printable_not_graph`), `Generate` returns the character error; the request returned is the one the
strategy left: `Include` is intact and nothing was inserted in the draft.
Above that `Length` the call panics (`Generate_none`). -/
theorem C8_invalid_character {E : Type} (env : Env E) (rnd : Nat → Nat → Nat)
    (hv : ValidRnd rnd) (p : Passphrase E) (k : Nat) (hd : DictReady env (strategy p))
    (h1 : 1 ≤ p.Length) (h2 : (p.Include.length : Int) ≤ goInt p.Length)
    (hA : 16 * p.Length ≤ maxAlloc)
    (hover : ∀ excl ∈ p.Exclude, ¬ excl <:+: Join p.Include (sepOf p))
    (w : Str) (hw : w ∈ p.Include) (c : Char) (hc : c ∈ env.normalize w)
    (hg : isGraph c = false) :
    ∃ p1 k1, Generate env rnd p k = some ((some .invalidCharacters, p1), k1) ∧
      p1.Include = p.Include ∧
      runList env rnd (strategy p) (withDefaults p) k = some (p1, k1) := by
  have hn1 : ¬ p.Length < 1 := by omega
  have hn2 : ¬ (p.Include.length : Int) > goInt p.Length := by omega
  obtain ⟨ws, k0, h0, -, -⟩ :=
    fillSecret_run (token env rnd (strategy p)) (Producible env (strategy p))
      (token_yields env rnd hv (strategy p) hd)
      { p with Separator := sepOf p, List := some (strategy p) } k hA
  have hrun : runList env rnd (strategy p) (withDefaults p) k = some
      ({ p with Secret := Join ws (sepOf p), Separator := sepOf p,
                List := some (strategy p) }, k0) := by
    rw [runList_eq, withDefaults_eq]
    exact h0
  have hx := includeError_invalid env
    { p with Secret := Join ws (sepOf p), Separator := sepOf p, List := some (strategy p) }
    hover w hw c hc hg
  have hi2 : p.Include.length ≠ 0 := by
    intro h3
    rw [List.length_eq_zero.mp h3] at hw
    simp at hw
  refine ⟨{ p with Secret := Join ws (sepOf p), Separator := sepOf p,
                   List := some (strategy p) }, k0, ?_, rfl, hrun⟩
  rw [Generate_after_draft env rnd p _ k k0 hn1 hn2 hrun, if_pos hi2]
  simp only [hx]

theorem C8_invalid_character_witness :
    ∃ p1 k1,
      Generate envT (tape []) ⟨[], 1, [], none, [[Char.ofNat 7]], [], (0, 0)⟩ 0 =
        some ((some .invalidCharacters, p1), k1) ∧
      p1.Include = [[Char.ofNat 7]] ∧
      runList envT (tape [])
          (strategy (⟨[], 1, [], none, [[Char.ofNat 7]], [], (0, 0)⟩ : Passphrase (Int × Int)))
          (withDefaults ⟨[], 1, [], none, [[Char.ofNat 7]], [], (0, 0)⟩) 0 = some (p1, k1) :=
  C8_invalid_character envT (tape []) (tape_valid _)
    ⟨[], 1, [], none, [[Char.ofNat 7]], [], (0, 0)⟩ 0 (by simp [DictReady, strategy])
    (by decide) (by decide) (by decide) (by simp) [Char.ofNat 7] (by simp) (Char.ofNat 7)
    (by simp [envT]) (by decide)

/-! ## C9 and C10: lengths are counted in bytes -/

/-- C9, as stated, fails: with `Length = 2` and the separator `"é"` (two bytes),
the final secret `"aaaéaaa"` has 7 characters and `calculateEntropy` receives
the exponent 8. -/
theorem C9_counterexample :
    Generate envT (tape []) ⟨[], 2, "é".toList, none, [], [], (0, 0)⟩ 0 =
        some ((none, ⟨"aaaéaaa".toList, 2, "é".toList, some .NoList, [], [], (28, 8)⟩), 14) ∧
      "aaaéaaa".toList.length = 7 := by
  decide

/-- C9, amended: for every successful `Generate`, the second argument passed to
`calculateEntropy` is the number of bytes of the UTF-8 encoding of the final
`Secret`, separators included, as it stands after the include and exclude
passes; it is the number of characters when the secret is ASCII. -/
theorem C9_exponent_bytes {E : Type} (env : Env E) (rnd : Nat → Nat → Nat)
    (p p1 : Passphrase E) (k k1 : Nat)
    (h : Generate env rnd p k = some ((none, p1), k1)) :
    p1.Entropy =
        env.calculateEntropy
          (basePool env p1 (strategy p) + (p1.Include.length : Int) - (p1.Exclude.length : Int))
          (goLen p1.Secret : Int) ∧
      ((∀ c ∈ p1.Secret, c.toNat < 128) → goLen p1.Secret = p1.Secret.length) := by
  rcases Generate_return env rnd p p1 none k k1 h with h0 | h0 | h0
  · rcases h0.1 with h2 | h2 <;> exact absurd h2 (by simp)
  · rcases h0.1 with ⟨x, h2⟩ | h2 <;> exact absurd h2 (by simp)
  · exact ⟨h0.2.2.2.2.2.2.2.2.1, goLen_ascii p1.Secret⟩

theorem C9_exponent_bytes_witness :
    ((28 : Int), (9 : Int)) =
        envT.calculateEntropy
          (basePool envT
              (⟨"aaa↑aaa".toList, 2, "↑".toList, some .NoList, [], [['q']], (28, 9)⟩ :
                Passphrase (Int × Int))
              (strategy (⟨[], 2, "↑".toList, none, [], [['q']], (0, 0)⟩ : Passphrase (Int × Int)))
            + (([] : List Str).length : Int) - (([['q']] : List Str).length : Int))
          (goLen "aaa↑aaa".toList : Int) ∧
      ((∀ c ∈ "aaa↑aaa".toList, c.toNat < 128) → goLen "aaa↑aaa".toList = "aaa↑aaa".toList.length) :=
  C9_exponent_bytes envT (tape []) ⟨[], 2, "↑".toList, none, [], [['q']], (0, 0)⟩
    ⟨"aaa↑aaa".toList, 2, "↑".toList, some .NoList, [], [['q']], (28, 9)⟩ 0 14 (by decide)

/-- C10, as stated, fails: with the default strategy and the one-character
separator `"é"` (two bytes), the pool size passed to `calculateEntropy` is 28,
not 5 + 21 + 1 = 27. -/
theorem C10_counterexample :
    Generate envT (tape []) ⟨[], 1, "é".toList, none, [], [], (0, 0)⟩ 0 =
        some ((none, ⟨"aaa".toList, 1, "é".toList, some .NoList, [], [], (28, 3)⟩), 7) ∧
      5 + 21 + "é".toList.length = 27 := by
  decide

/-- C10, amended: under `NoList` (also the default for a nil `List`) with empty
`Include` and `Exclude`, the pool size passed to `calculateEntropy` is 5 + 21 +
the number of bytes of the UTF-8 encoding of the separator in force, which is
its number of characters when it is ASCII; an empty separator is first
replaced by a single space and the pool size is then 27. -/
theorem C10_pool_bytes {E : Type} (env : Env E) (rnd : Nat → Nat → Nat)
    (p p1 : Passphrase E) (k k1 : Nat) (hs : strategy p = .NoList) (hi : p.Include = [])
    (he : p.Exclude = []) (h : Generate env rnd p k = some ((none, p1), k1)) :
    p1.Entropy =
        env.calculateEntropy ((5 + 21 + goLen (sepOf p) : Nat) : Int) (goLen p1.Secret : Int) ∧
      ((∀ c ∈ sepOf p, c.toNat < 128) → goLen (sepOf p) = (sepOf p).length) ∧
      (p.Separator = [] → 5 + 21 + goLen (sepOf p) = 27) := by
  rcases Generate_return env rnd p p1 none k k1 h with h0 | h0 | h0
  · rcases h0.1 with h2 | h2 <;> exact absurd h2 (by simp)
  · rcases h0.1 with ⟨x, h2⟩ | h2 <;> exact absurd h2 (by simp)
  · obtain ⟨-, -, -, -, -, h5, -, h7, h8, h9⟩ := h0
    refine ⟨?_, goLen_ascii (sepOf p), ?_⟩
    · rw [h8]
      unfold entropyBits
      simp only [hs, basePool, h5, h9 hi, h7, he, List.length_nil]
      congr 1
    · intro h10
      unfold sepOf
      rw [if_pos h10]
      rfl

theorem C10_pool_bytes_witness :
    ((27 : Int), (3 : Int)) =
        envT.calculateEntropy
          ((5 + 21 + goLen (sepOf (⟨[], 1, [], none, [], [], (0, 0)⟩ : Passphrase (Int × Int))) :
            Nat) : Int)
          (goLen "aaa".toList : Int) ∧
      ((∀ c ∈ sepOf (⟨[], 1, [], none, [], [], (0, 0)⟩ : Passphrase (Int × Int)), c.toNat < 128) →
        goLen (sepOf (⟨[], 1, [], none, [], [], (0, 0)⟩ : Passphrase (Int × Int))) =
          (sepOf (⟨[], 1, [], none, [], [], (0, 0)⟩ : Passphrase (Int × Int))).length) ∧
      (([] : Str) = [] →
        5 + 21 + goLen (sepOf (⟨[], 1, [], none, [], [], (0, 0)⟩ : Passphrase (Int × Int))) = 27) :=
  C10_pool_bytes envT (tape []) ⟨[], 1, [], none, [], [], (0, 0)⟩
    ⟨"aaa".toList, 1, [' '], some .NoList, [], [], (27, 3)⟩ 0 7 rfl rfl rfl (by decide)

/-! ## C11: the sign of the pool size -/

theorem basePool_separator {E : Type} (env : Env E) (p q : Passphrase E) (m : list)
    (h : p.Separator = q.Separator) : basePool env p m = basePool env q m := by
  cases m
  · simp only [basePool, h]
  · rfl
  · rfl

/-- C11, as stated, fails: with `Length = 1`, the default strategy and 27 excluded
words, `Generate` succeeds and passes the pool size 27 - 27 = 0 to
`calculateEntropy`. -/
theorem C11_counterexample :
    Generate envT (tape []) ⟨[], 1, [], none, [], List.replicate 27 ['q'], (0, 0)⟩ 0 =
      some ((none,
        ⟨['a', 'a', 'a'], 1, [' '], some .NoList, [], List.replicate 27 ['q'], (0, 3)⟩), 7) := by
  decide

/-- C11, amended: on every request on which `Generate` succeeds and whose
`Exclude` list has fewer words than the base pool of the strategy, the pool
size that `entropyBits` passes to `calculateEntropy` is at least 1. -/
theorem C11_pool_positive {E : Type} (env : Env E) (rnd : Nat → Nat → Nat)
    (p p1 : Passphrase E) (k k1 : Nat)
    (hex : (p.Exclude.length : Int) < basePool env (withDefaults p) (strategy p))
    (h : Generate env rnd p k = some ((none, p1), k1)) :
    ∃ pool : Int, 1 ≤ pool ∧
      pool = basePool env p1 (strategy p) + (p1.Include.length : Int) -
        (p1.Exclude.length : Int) ∧
      p1.Entropy = env.calculateEntropy pool (goLen p1.Secret : Int) := by
  rcases Generate_return env rnd p p1 none k k1 h with h0 | h0 | h0
  · rcases h0.1 with h2 | h2 <;> exact absurd h2 (by simp)
  · rcases h0.1 with ⟨x, h2⟩ | h2 <;> exact absurd h2 (by simp)
  · obtain ⟨-, -, -, -, -, h5, -, h7, h8, -⟩ := h0
    have hb : basePool env p1 (strategy p) = basePool env (withDefaults p) (strategy p) :=
      basePool_separator env p1 (withDefaults p) (strategy p) (by rw [h5, withDefaults_eq])
    refine ⟨_, ?_, rfl, h8⟩
    rw [hb, h7]
    omega

theorem C11_pool_positive_witness :
    ∃ pool : Int, 1 ≤ pool ∧
      pool = basePool envT
          (⟨"ter+ter".toList, 2, ['+'], some .SyllableList, [], [['q']], (1, 7)⟩ :
            Passphrase (Int × Int))
          (strategy (⟨[], 2, ['+'], some .SyllableList, [], [['q']], (0, 0)⟩ :
            Passphrase (Int × Int)))
        + (([] : List Str).length : Int) - (([['q']] : List Str).length : Int) ∧
      ((1, 7) : Int × Int) = envT.calculateEntropy pool (goLen "ter+ter".toList : Int) :=
  C11_pool_positive envT (tape [1, 1]) ⟨[], 2, ['+'], some .SyllableList, [], [['q']], (0, 0)⟩
    ⟨"ter+ter".toList, 2, ['+'], some .SyllableList, [], [['q']], (1, 7)⟩ 0 2
    (by decide) (by decide)

/-! ## C13: the exclude pass is single-pass -/

/-- C13: the exclude pass is single-pass.  With `Length = 1`, the default strategy,
`Exclude = ["aaa"]` and the source that always answers 0, the draft `"aaa"` is
excluded and regenerated once (seven more values are consumed); the new token
is `"aaa"` again, `Generate` succeeds and the final secret is the excluded
word. -/
theorem C13_single_pass {E : Type} (env : Env E) (e0 : E) :
    ValidRnd (tape []) ∧
      runList env (tape []) .NoList (withDefaults ⟨[], 1, [], none, [], [['a', 'a', 'a']], e0⟩) 0 =
        some (⟨['a', 'a', 'a'], 1, [' '], some .NoList, [], [['a', 'a', 'a']], e0⟩, 7) ∧
      Generate env (tape []) ⟨[], 1, [], none, [], [['a', 'a', 'a']], e0⟩ 0 =
        some ((none, ⟨['a', 'a', 'a'], 1, [' '], some .NoList, [], [['a', 'a', 'a']],
          env.calculateEntropy 26 3⟩), 14) ∧
      Split ['a', 'a', 'a'] [' '] = [['a', 'a', 'a']] :=
  ⟨tape_valid [], rfl, rfl, by decide⟩

/-! ## C14: the fields of the request after the call -/

/-- C14 at a failing input: with `Length = 2`, the syllable strategy and
`Include = ["x", "y"]`, `Generate` succeeds and leaves `Include` empty: the
include pass has removed both words from the request. -/
theorem C14_failing_input :
    Generate envT (tape []) ⟨[], 2, ['-'], some .SyllableList, [['x'], ['y']], [], (0, 0)⟩ 0 =
      some ((none, ⟨"x-y".toList, 2, ['-'], some .SyllableList, [], [], (2, 3)⟩), 6) := by
  decide

/-! ## C16: the pseudo-words of `NoList` -/

theorem vowels_not_constants : ∀ l ∈ vowels, l ∉ constants := by decide

theorem letter_at (rnd : Nat → Nat → Nat) (hv : ValidRnd rnd) (k : Nat) :
    ∃ c, letter rnd k = some ([c], k + 2) ∧ IsLetter c ∧
      ([c] ∈ vowels ↔ rnd k 11 ≤ 3) := by
  obtain ⟨l, h1, h2, h3, h4⟩ := letter_run rnd hv k
  obtain ⟨h5, -⟩ := letters_flatten [l] (by simpa using h2)
  have h6 : l.length = 1 := by simpa using h5
  obtain ⟨c, rfl⟩ := List.length_eq_one.mp h6
  refine ⟨c, h1, h2, fun hin => ?_, h3⟩
  by_contra hn
  exact vowels_not_constants _ hin (h4 hn)

theorem syllablesLoop_at (rnd : Nat → Nat → Nat) (hv : ValidRnd rnd) (j : Nat) :
    ∀ (syllables : List Str) (k : Nat), ∃ cs : List Char,
      syllablesLoop rnd j syllables k =
          some (syllables ++ cs.map (fun c => [c]), k + 2 * j) ∧
        cs.length = j ∧
        ∀ t (h : t < cs.length), IsLetter cs[t] ∧ ([cs[t]] ∈ vowels ↔ rnd (k + 2 * t) 11 ≤ 3) := by
  induction j with
  | zero =>
    intro syllables k
    exact ⟨[], by simp [syllablesLoop, pure_run], rfl, fun t h => absurd h (by simp)⟩
  | succ j ih =>
    intro syllables k
    obtain ⟨c, hc, hl, hvow⟩ := letter_at rnd hv k
    obtain ⟨cs, hcs, hlen, hall⟩ := ih (syllables ++ [[c]]) (k + 2)
    refine ⟨c :: cs, ?_, by simp [hlen], ?_⟩
    · rw [syllablesLoop, bind_some _ _ _ _ _ hc, hcs]
      simp only [List.append_assoc, List.singleton_append, List.map_cons]
      congr 2
      omega
    · intro t h
      cases t with
      | zero => exact ⟨hl, by simpa using hvow⟩
      | succ t =>
        have ht : t < cs.length := by simpa using h
        have := hall t ht
        have he : k + 2 + 2 * t = k + 2 * (t + 1) := by omega
        rw [he] at this
        simpa using this

theorem flatten_singletons (n : Nat) (cs : List Char) :
    (List.replicate n ([] : Str) ++ cs.map (fun c => [c])).flatten = cs := by
  induction n with
  | zero =>
    induction cs with
    | nil => rfl
    | cons c cs ih => simpa using ih
  | succ n ih => simpa [List.replicate_succ] using ih

theorem pseudoWord_at (rnd : Nat → Nat → Nat) (hv : ValidRnd rnd) (k : Nat) :
    ∃ w, pseudoWord rnd k = some (w, k + 1 + 2 * (rnd k 10 + 3)) ∧ PseudoWordAt rnd k w := by
  obtain ⟨cs, hcs, hlen, hall⟩ :=
    syllablesLoop_at rnd hv (rnd k 10 + 3) (List.replicate (rnd k 10 + 3) []) (k + 1)
  have hr : rnd k 10 < 10 := hv _ _ (by decide)
  have hA : 16 * (rnd k 10 + 3) ≤ maxAlloc := by rw [maxAlloc_eq]; omega
  refine ⟨cs, ?_, hlen, hall⟩
  unfold pseudoWord
  rw [bind_some _ _ _ _ _ (randInt_run rnd 10 k (by decide)),
    bind_some _ _ _ _ _ (makeSlice_run 16 (rnd k 10 + 3) [] (k + 1) hA),
    bind_some _ _ _ _ _ hcs, pure_run, Join_nil_sep, flatten_singletons]

theorem callStarts_length (next : Nat → Nat) (n : Nat) :
    ∀ k, (callStarts next n k).length = n := by
  induction n with
  | zero => intro k; rfl
  | succ n ih => intro k; simp [callStarts, ih]

theorem fillLoop_at (gen : M Str) (next : Nat → Nat) (Q : Nat → Str → Prop)
    (hg : ∀ k, ∃ a, gen k = some (a, next k) ∧ Q k a) (n : Nat) :
    ∀ (done : List Str) (k : Nat), ∃ ws k1,
      fillLoop gen n done.length (done ++ List.replicate n []) k = some (done ++ ws, k1) ∧
        List.Forall₂ Q (callStarts next n k) ws := by
  induction n with
  | zero =>
    intro done k
    exact ⟨[], k, by simp [fillLoop, pure_run], List.Forall₂.nil⟩
  | succ n ih =>
    intro done k
    obtain ⟨w, hw, hQ⟩ := hg k
    obtain ⟨ws, k2, hws, hall⟩ := ih (done ++ [w]) (next k)
    refine ⟨w :: ws, k2, ?_, List.Forall₂.cons hQ hall⟩
    rw [fillLoop, bind_some _ _ _ _ _ hw, List.replicate_succ, set_at_length]
    simpa using hws

theorem fillSecret_at {E : Type} (gen : M Str) (next : Nat → Nat) (Q : Nat → Str → Prop)
    (hg : ∀ k, ∃ a, gen k = some (a, next k) ∧ Q k a) (p : Passphrase E) (k : Nat)
    (hA : 16 * p.Length ≤ maxAlloc) :
    ∃ ws k1, fillSecret gen p k = some ({ p with Secret := Join ws p.Separator }, k1) ∧
      List.Forall₂ Q (callStarts next p.Length k) ws := by
  obtain ⟨ws, k1, h, hall⟩ := fillLoop_at gen next Q hg p.Length [] k
  refine ⟨ws, k1, ?_, hall⟩
  unfold fillSecret
  rw [goInt_small _ (alloc_bounds _ hA).1,
    bind_some _ _ _ _ _ (makeSlice_run 16 p.Length [] k hA), List.length_replicate,
    bind_some _ _ _ _ _ (by simpa using h)]
  rfl

theorem forall2_right {α β : Type} (R : α → β → Prop) (P : β → Prop)
    (hRP : ∀ a b, R a b → P b) (xs : List α) (ys : List β) (h : List.Forall₂ R xs ys) :
    ∀ b ∈ ys, P b := by
  induction h with
  | nil => simp
  | @cons a b l1 l2 hab _ ih =>
    intro x hx
    rcases List.mem_cons.mp hx with rfl | hx
    · exact hRP a _ hab
    · exact ih x hx

/-- C16 as worded fails: for `Length = 2 ^ 62`, with a random source within its
bounds, `NoList` generates no pseudo-word at all: `make([]string, p.Length)`
panics, and so does `Generate`, which has passed its two length checks. -/
theorem C16_counterexample :
    ValidRnd (tape []) ∧
      NoList (tape []) (⟨[], 2 ^ 62, [' '], some .NoList, [], [], (0, 0)⟩ :
        Passphrase (Int × Int)) 0 = none ∧
      Generate envT (tape []) ⟨[], 2 ^ 62, [], none, [], [], (0, 0)⟩ 0 = none :=
  ⟨tape_valid [], by decide, by decide⟩

/-- C16, amended: for a `Length` whose slice of strings the runtime allocates and a
random source within its bounds, `NoList` returns, and its secret is the join
of `Length` pseudo-words,
the first starting at the current call of the random source and each one
where the previous ended; each has `randInt(10) + 3` characters, between 3
and 12, every character is one of the 26 letters of `vowels` and `constants`,
and the letter at a position is a vowel exactly when the 0-10 draw for that
position is at most 3.  Above that `Length` the strategy panics
(`fillSecret_none`). -/
theorem C16_pseudo_words {E : Type} (rnd : Nat → Nat → Nat) (hv : ValidRnd rnd)
    (p : Passphrase E) (k : Nat) (hA : 16 * p.Length ≤ maxAlloc) :
    ∃ ws k1, NoList rnd p k = some ({ p with Secret := Join ws p.Separator }, k1) ∧
      ws.length = p.Length ∧
      List.Forall₂ (PseudoWordAt rnd)
        (callStarts (fun kk => kk + 1 + 2 * (rnd kk 10 + 3)) p.Length k) ws ∧
      ∀ w ∈ ws, 3 ≤ w.length ∧ w.length ≤ 12 := by
  have hg : ∀ k0, ∃ a, pseudoWord rnd k0 = some (a, k0 + 1 + 2 * (rnd k0 10 + 3)) ∧
      PseudoWordAt rnd k0 a := pseudoWord_at rnd hv
  obtain ⟨ws, k1, h1, h2⟩ := fillSecret_at (pseudoWord rnd) _ _ hg p k hA
  refine ⟨ws, k1, h1, ?_, h2, ?_⟩
  · rw [← h2.length_eq, callStarts_length]
  · refine forall2_right _ _ ?_ _ _ h2
    intro kk w hw
    have hr : rnd kk 10 < 10 := hv _ _ (by decide)
    have := hw.1
    omega

theorem C16_pseudo_words_witness :
    ∃ ws k1,
      NoList (tape [1, 0, 4, 9, 0, 0, 3, 2, 8, 20])
          (⟨[], 1, ['.'], none, [], [], (0, 0)⟩ : Passphrase (Int × Int)) 0 =
        some ({ (⟨[], 1, ['.'], none, [], [], (0, 0)⟩ : Passphrase (Int × Int)) with
                Secret := Join ws ['.'] }, k1) ∧
      ws.length = 1 ∧
      List.Forall₂ (PseudoWordAt (tape [1, 0, 4, 9, 0, 0, 3, 2, 8, 20]))
        (callStarts (fun kk => kk + 1 + 2 * (tape [1, 0, 4, 9, 0, 0, 3, 2, 8, 20] kk 10 + 3)) 1 0)
        ws ∧
      ∀ w ∈ ws, 3 ≤ w.length ∧ w.length ≤ 12 :=
  C16_pseudo_words (tape [1, 0, 4, 9, 0, 0, 3, 2, 8, 20]) (tape_valid _)
    ⟨[], 1, ['.'], none, [], [], (0, 0)⟩ 0 (by decide)

/-! ## C17: the dictionary strategies -/

theorem callStarts_succ (n : Nat) : ∀ k, callStarts (fun kk => kk + 1) n k = List.range' k n := by
  induction n with
  | zero => intro k; rfl
  | succ n ih => intro k; simp [callStarts, ih, List.range'_succ]

theorem finish_plain {E : Type} (env : Env E) (rnd : Nat → Nat → Nat) (q : Passphrase E)
    (k : Nat) (he : q.Exclude = []) :
    finish env rnd q k =
      some ((none, { q with Entropy := entropyBits env q (strategy q) }), k) := by
  have hn : ¬ (q.Exclude.length ≠ 0) := by simp [he]
  unfold finish
  rw [if_neg hn]
  rfl

/-- `Generate` on a request with empty `Include` and `Exclude` that passes the two
length checks: the draft of the strategy is final and only the entropy is
added. -/
theorem Generate_plain {E : Type} (env : Env E) (rnd : Nat → Nat → Nat)
    (p q : Passphrase E) (k k0 : Nat) (h1 : 1 ≤ p.Length)
    (h2 : (p.Include.length : Int) ≤ goInt p.Length)
    (hi : p.Include = []) (he : p.Exclude = [])
    (hrun : runList env rnd (strategy p) (withDefaults p) k = some (q, k0)) :
    Generate env rnd p k =
      some ((none, { q with Entropy := entropyBits env q (strategy q) }), k0) := by
  have hn1 : ¬ p.Length < 1 := by omega
  have hn2 : ¬ (p.Include.length : Int) > goInt p.Length := by omega
  obtain ⟨s, hq⟩ := runList_inv env rnd p q k k0 hrun
  have hqi : ¬ (q.Include.length ≠ 0) := by rw [hq]; simp [hi]
  have hqe : q.Exclude = [] := by rw [hq]; exact he
  rw [Generate_after_draft env rnd p q k k0 hn1 hn2 hrun, if_neg hqi]
  exact finish_plain env rnd q k0 hqe

theorem goInt_small_empty {E : Type} (p : Passphrase E) (hL : p.Length < 2 ^ 63)
    (hi : p.Include = []) : (p.Include.length : Int) ≤ goInt p.Length := by
  rw [goInt_small _ hL, hi]
  simp

/-- C17 as worded fails: for `Length = 2 ^ 62`, empty `Include` and `Exclude`
and the separator `-`, `WordList` produces no secret: `make([]string, p.Length)`
panics, and so does `Generate`, which has passed its two length checks. -/
theorem C17_counterexample :
    ValidRnd (tape []) ∧
      WordList envT (tape []) ⟨[], 2 ^ 62, ['-'], some .WordList, [], [], (0, 0)⟩ 0 = none ∧
      Generate envT (tape []) ⟨[], 2 ^ 62, ['-'], some .WordList, [], [], (0, 0)⟩ 0 = none :=
  ⟨tape_valid [], by decide, by decide⟩

/-- C17, amended: for a `Length` whose slice of strings the runtime allocates,
with a non-empty dictionary, the draft of `WordList` (of `SyllableList`)
is the join, by the separator in force, of `Length` tokens, the `i`-th being
`dictionary[randInt(len(dictionary))]` for the `i`-th call of the random
source; with empty `Include` and `Exclude` and `Length ≥ 1`, `Generate` succeeds
and the draft is the secret it returns.  Above that `Length` the strategy
panics (`fillSecret_none`). -/
theorem C17_dictionary_tokens {E : Type} (env : Env E) (rnd : Nat → Nat → Nat)
    (hv : ValidRnd rnd) (p : Passphrase E) (k : Nat) (dict : List Str)
    (hdict : (strategy p = .WordList ∧ dict = env.atollWords) ∨
      (strategy p = .SyllableList ∧ dict = env.atollSyllables))
    (hne : dict ≠ []) (hA : 16 * p.Length ≤ maxAlloc) :
    ∃ ws k1,
      runList env rnd (strategy p) (withDefaults p) k =
        some ({ p with Secret := Join ws (sepOf p), Separator := sepOf p,
                       List := some (strategy p) }, k1) ∧
      ws.length = p.Length ∧
      List.Forall₂ (fun kk w => w ∈ dict ∧ dict[rnd kk dict.length]? = some w)
        (List.range' k p.Length) ws ∧
      (p.Include = [] → p.Exclude = [] →
        (∀ p1 k2, Generate env rnd p k = some ((none, p1), k2) →
          p1.Secret = Join ws (sepOf p) ∧ p1.Separator = sepOf p) ∧
        (1 ≤ p.Length →
          ∃ p1, Generate env rnd p k = some ((none, p1), k1))) := by
  have htok : token env rnd (strategy p) = dictWord rnd dict := by
    rcases hdict with ⟨h1, h2⟩ | ⟨h1, h2⟩ <;> rw [h1, h2] <;> rfl
  have hg : ∀ k0, ∃ a, dictWord rnd dict k0 = some (a, k0 + 1) ∧
      (a ∈ dict ∧ dict[rnd k0 dict.length]? = some a) := fun k0 => dictWord_run rnd hv dict hne k0
  obtain ⟨ws, k1, h1, h2⟩ := fillSecret_at (dictWord rnd dict) _ _ hg
    { p with Separator := sepOf p, List := some (strategy p) } k hA
  have hrun : runList env rnd (strategy p) (withDefaults p) k =
      some ({ p with Secret := Join ws (sepOf p), Separator := sepOf p,
                     List := some (strategy p) }, k1) := by
    rw [runList_eq, withDefaults_eq, htok]
    exact h1
  have h3 : List.Forall₂ (fun kk w => w ∈ dict ∧ dict[rnd kk dict.length]? = some w)
      (List.range' k p.Length) ws := by
    rw [← callStarts_succ]
    exact h2
  refine ⟨ws, k1, hrun, ?_, h3, ?_⟩
  · rw [← h3.length_eq, List.length_range']
  · intro hi he
    refine ⟨?_, ?_⟩
    · intro p1 k2 hgen
      rcases Generate_return env rnd p p1 none k k2 hgen with h0 | h0 | h0
      · rcases h0.1 with h4 | h4 <;> exact absurd h4 (by simp)
      · rcases h0.1 with ⟨x, h4⟩ | h4 <;> exact absurd h4 (by simp)
      · have h5 := Generate_plain env rnd p _ k k1 h0.2.1 h0.2.2.1 hi he hrun
        rw [hgen] at h5
        simp only [Option.some.injEq, Prod.mk.injEq, true_and] at h5
        rw [h5.1]
        exact ⟨rfl, rfl⟩
    · intro hl1
      exact ⟨_, Generate_plain env rnd p _ k k1 hl1
        (goInt_small_empty p (alloc_bounds _ hA).1 hi) hi he hrun⟩

theorem C17_dictionary_tokens_witness :
    ∃ ws k1,
      runList envT (tape [2, 0, 1])
          (strategy (⟨[], 3, ['-'], some .WordList, [], [], (0, 0)⟩ : Passphrase (Int × Int)))
          (withDefaults ⟨[], 3, ['-'], some .WordList, [], [], (0, 0)⟩) 0 =
        some ({ (⟨[], 3, ['-'], some .WordList, [], [], (0, 0)⟩ : Passphrase (Int × Int)) with
                Secret := Join ws (sepOf (⟨[], 3, ['-'], some .WordList, [], [], (0, 0)⟩ :
                  Passphrase (Int × Int))),
                Separator := sepOf (⟨[], 3, ['-'], some .WordList, [], [], (0, 0)⟩ :
                  Passphrase (Int × Int)),
                List := some (strategy (⟨[], 3, ['-'], some .WordList, [], [], (0, 0)⟩ :
                  Passphrase (Int × Int))) }, k1) ∧
      ws.length = 3 ∧
      List.Forall₂
        (fun kk w => w ∈ envT.atollWords ∧
          envT.atollWords[tape [2, 0, 1] kk envT.atollWords.length]? = some w)
        (List.range' 0 3) ws ∧
      (([] : List Str) = [] → ([] : List Str) = [] →
        (∀ p1 k2,
          Generate envT (tape [2, 0, 1]) ⟨[], 3, ['-'], some .WordList, [], [], (0, 0)⟩ 0 =
            some ((none, p1), k2) →
          p1.Secret = Join ws (sepOf (⟨[], 3, ['-'], some .WordList, [], [], (0, 0)⟩ :
            Passphrase (Int × Int))) ∧
          p1.Separator = sepOf (⟨[], 3, ['-'], some .WordList, [], [], (0, 0)⟩ :
            Passphrase (Int × Int))) ∧
        (1 ≤ 3 →
          ∃ p1, Generate envT (tape [2, 0, 1]) ⟨[], 3, ['-'], some .WordList, [], [], (0, 0)⟩ 0 =
            some ((none, p1), k1))) :=
  C17_dictionary_tokens envT (tape [2, 0, 1]) (tape_valid _)
    ⟨[], 3, ['-'], some .WordList, [], [], (0, 0)⟩ 0 envT.atollWords (Or.inl ⟨rfl, rfl⟩)
    (by simp [envT]) (by decide)

/-! ## C18: the include words as written -/

/-- C18 at a failing input: with `Length = 1` and `Include = ["Horse"]`, whose
normalized form `"horse"` passes the character check, `Generate` succeeds and
the include pass writes the word as the caller supplied it, `"Horse"`. -/
theorem C18_failing_input :
    Generate envN (tape []) ⟨[], 1, [], none, ["Horse".toList], [], (0, 0)⟩ 0 =
        some ((none, ⟨"Horse".toList, 1, [' '], some .NoList, [], [], (27, 5)⟩), 9) ∧
      envN.normalize "Horse".toList = "horse".toList ∧
      invalidWord "horse".toList = false := by
  decide

/-! ## C20: the lengths `Generate` rejects -/

/-- C20 at a failing input: with empty `Include` and `Exclude` and
`Length = 2 ^ 63`, `int(Length)` is negative, the include-count check
`len(p.Include) > int(p.Length)` reads `0 > int(Length)` and fires, and `Generate`
returns the error `number of words to include exceed the password length`
although `Length` is not 0 and there is no word to include; `NewPassphrase`
returns the empty string and that error. -/
theorem C20_failing_input :
    Generate envT (tape []) ⟨[], 2 ^ 63, [], none, [], [], (0, 0)⟩ 0 =
        some ((some .includeExceeds, ⟨[], 2 ^ 63, [], none, [], [], (0, 0)⟩), 0) ∧
      goInt (2 ^ 63) = -9223372036854775808 ∧
      NewPassphrase envT (tape []) (2 ^ 63) none 0 = some (([], some .includeExceeds), 0) := by
  decide

/-! ## The include pass, position by position -/

/-- The second loop of `includeWords`, position by position: the picked positions
from `pre.length` on, in increasing order, receive a permutation of the
include words and every other position keeps its token. -/
theorem includeOuter_places (rnd : Nat → Nat → Nat) (hv : ValidRnd rnd) (indices : List Nat)
    (hnd : indices.Nodup) (post : List Str) :
    ∀ (pre incl : List Str) (k : Nat), (∀ j ∈ indices, j < pre.length + post.length) →
      incl.length = (indices.filter (fun j => decide (pre.length ≤ j))).length →
      ∃ post1 k1 pos perm,
        includeOuter rnd indices post.length pre.length (pre ++ post, incl) k =
            some ((pre ++ post1, []), k1) ∧
          post1.length = post.length ∧ perm.Perm incl ∧ pos.Nodup ∧
          (∀ q ∈ pos, pre.length ≤ q ∧ q ∈ indices) ∧
          (∀ q ∈ indices, pre.length ≤ q → q ∈ pos) ∧
          List.Forall₂ (fun q w => pre.length ≤ q ∧ post1[q - pre.length]? = some w) pos perm ∧
          ∀ n, pre.length + n ∉ indices → post1[n]? = post[n]? := by
  induction post with
  | nil =>
    intro pre incl k hlt hlen
    have hf : indices.filter (fun j => decide (pre.length ≤ j)) = [] := by
      rw [List.filter_eq_nil_iff]
      intro j hj
      have := hlt j hj
      simp only [List.length_nil, Nat.add_zero] at this
      simp
      omega
    rw [hf] at hlen
    have hi : incl = [] := List.length_eq_zero.mp hlen
    subst hi
    refine ⟨[], k, [], [], by simp [includeOuter, pure_run], rfl, List.Perm.refl _,
      List.nodup_nil, by simp, ?_, List.Forall₂.nil, fun _ _ => rfl⟩
    intro q hq hle
    have := hlt q hq
    simp only [List.length_nil, Nat.add_zero] at this
    omega
  | cons x post ih =>
    intro pre incl k hlt hlen
    have hcount := filter_le_count indices pre.length
    have hlt2 : ∀ w0 : Str, ∀ j ∈ indices, j < (pre ++ [w0]).length + post.length := by
      intro w0 j hj
      have := hlt j hj
      simp only [List.length_cons] at this
      simp only [List.length_append, List.length_singleton]
      omega
    have hplen : ∀ w0 : Str, (pre ++ [w0]).length = pre.length + 1 := by
      intro w0; simp
    by_cases hi : pre.length ∈ indices
    · have hc : indices.count pre.length = 1 := List.count_eq_one_of_mem hnd hi
      have hne : incl ≠ [] := by
        intro h
        rw [h] at hlen
        simp only [List.length_nil] at hlen
        omega
      obtain ⟨w, incl1, h1, hperm⟩ := includeInner_hit rnd hv pre.length indices hnd hi
        (pre ++ x :: post) incl hne k
      have hl1 : incl1.length =
          (indices.filter (fun j => decide ((pre ++ [w]).length ≤ j))).length := by
        have := hperm.length_eq
        simp only [List.length_cons] at this
        rw [hplen]
        omega
      obtain ⟨post1, k1, pos, perm, h2, h3, h4, h5, h6, h7, h8, h9⟩ :=
        ih (pre ++ [w]) incl1 (k + 1) (hlt2 w) hl1
      rw [hplen] at h6 h7 h8 h9
      refine ⟨w :: post1, k1, pre.length :: pos, w :: perm, ?_, by simp [h3], ?_, ?_, ?_, ?_, ?_, ?_⟩
      · rw [List.length_cons, includeOuter, bind_some _ _ _ _ _ h1, set_at_length]
        rw [hplen] at h2
        simpa using h2
      · exact (List.Perm.cons w h4).trans hperm.symm
      · refine List.nodup_cons.mpr ⟨fun hin => ?_, h5⟩
        have := (h6 _ hin).1
        omega
      · intro q hq
        rcases List.mem_cons.mp hq with rfl | hq
        · exact ⟨Nat.le_refl _, hi⟩
        · exact ⟨by have := (h6 q hq).1; omega, (h6 q hq).2⟩
      · intro q hq hle
        by_cases he : q = pre.length
        · simp [he]
        · exact List.mem_cons_of_mem _ (h7 q hq (by omega))
      · refine List.Forall₂.cons ⟨Nat.le_refl _, by simp⟩ (h8.imp ?_)
        intro q w0 ⟨hq1, hq2⟩
        refine ⟨by omega, ?_⟩
        have he : q - pre.length = (q - (pre.length + 1)) + 1 := by omega
        rw [he, List.getElem?_cons_succ]
        exact hq2
      · intro n hn
        cases n with
        | zero => exact absurd hi hn
        | succ n =>
          rw [List.getElem?_cons_succ, List.getElem?_cons_succ]
          exact h9 n (by
            have he : pre.length + 1 + n = pre.length + (n + 1) := by omega
            rw [he]; exact hn)
    · have hc : indices.count pre.length = 0 := List.count_eq_zero_of_not_mem hi
      have hl1 : incl.length =
          (indices.filter (fun j => decide ((pre ++ [x]).length ≤ j))).length := by
        rw [hplen]
        omega
      obtain ⟨post1, k1, pos, perm, h2, h3, h4, h5, h6, h7, h8, h9⟩ :=
        ih (pre ++ [x]) incl k (hlt2 x) hl1
      rw [hplen] at h6 h7 h8 h9
      refine ⟨x :: post1, k1, pos, perm, ?_, by simp [h3], h4, h5, ?_, ?_, ?_, ?_⟩
      · rw [List.length_cons, includeOuter,
          bind_some _ _ _ _ _ (includeInner_skip rnd pre.length indices hi _ k)]
        rw [hplen] at h2
        simpa using h2
      · intro q hq
        exact ⟨by have := (h6 q hq).1; omega, (h6 q hq).2⟩
      · intro q hq hle
        have he : q ≠ pre.length := fun h => hi (h ▸ hq)
        exact h7 q hq (by omega)
      · refine h8.imp ?_
        intro q w0 ⟨hq1, hq2⟩
        refine ⟨by omega, ?_⟩
        have he : q - pre.length = (q - (pre.length + 1)) + 1 := by omega
        rw [he, List.getElem?_cons_succ]
        exact hq2
      · intro n hn
        cases n with
        | zero => simp
        | succ n =>
          rw [List.getElem?_cons_succ, List.getElem?_cons_succ]
          exact h9 n (by
            have he : pre.length + 1 + n = pre.length + (n + 1) := by omega
            rw [he]; exact hn)

/-! ## C19: the include pass never leaves its slices -/

theorem splitGo_nil (sep : Str) (n : Nat) (cur : Str) : splitGo sep n cur [] = [cur.reverse] := by
  cases n <;> rfl

theorem splitGo_length (sep : Str) (s : Str) :
    ∀ (n : Nat) (cur : Str), (splitGo sep n cur s).length = pieces sep (s.drop n) := by
  induction s with
  | nil =>
    intro n cur
    rw [splitGo_nil]
    simp [pieces, splitGo_nil]
  | cons c cs ih =>
    intro n cur
    cases n with
    | succ m =>
      rw [splitGo, ih m cur]
      rfl
    | zero =>
      by_cases hp : sep.isPrefixOf (c :: cs)
      · unfold pieces
        rw [List.drop_zero, splitGo, splitGo, if_pos hp, if_pos hp]
        simp
      · have h1 := ih 0 (c :: cur)
        have h2 := ih 0 [c]
        rw [List.drop_zero] at h1 h2
        unfold pieces at h1 h2 ⊢
        rw [List.drop_zero, splitGo, splitGo, if_neg hp, if_neg hp, h1, h2]

theorem pieces_nil (sep : Str) : pieces sep [] = 1 := rfl

theorem pieces_cons (sep : Str) (c : Char) (cs : Str) :
    pieces sep (c :: cs) =
      if sep.isPrefixOf (c :: cs) then 1 + pieces sep (cs.drop (sep.length - 1))
      else pieces sep cs := by
  by_cases hp : sep.isPrefixOf (c :: cs)
  · rw [if_pos hp]
    unfold pieces
    rw [splitGo, if_pos hp, List.length_cons, splitGo_length]
    unfold pieces
    omega
  · rw [if_neg hp]
    have h := splitGo_length sep cs 0 [c]
    rw [List.drop_zero] at h
    unfold pieces at h ⊢
    rw [splitGo, if_neg hp, h]

theorem pieces_pos (sep s : Str) : 1 ≤ pieces sep s := by
  induction s with
  | nil => rw [pieces_nil]
  | cons c cs ih =>
    rw [pieces_cons]
    split
    · omega
    · exact ih

theorem drop_step (sep : Str) (j n : Nat)
    (hA : ∀ t : Str, t.length ≤ n → ∀ c, pieces sep t ≤ pieces sep (c :: t)) (t : Str)
    (ht : t.length ≤ n + 1) : pieces sep (t.drop (j + 1)) ≤ pieces sep (t.drop j) := by
  by_cases hj : j < t.length
  · rw [List.drop_eq_getElem_cons hj]
    exact hA _ (by simp only [List.length_drop]; omega) _
  · rw [List.drop_eq_nil_of_le (by omega), List.drop_eq_nil_of_le (by omega)]

/-- Cutting at the leftmost occurrence loses no piece: a string has no more
pieces than the same string after one more character in front, and at most
one more than after the removal of as many characters as the separator has. -/
theorem pieces_mono (c0 : Char) (tl : Str) (n : Nat) :
    ∀ s : Str, s.length ≤ n →
      (∀ c, pieces (c0 :: tl) s ≤ pieces (c0 :: tl) (c :: s)) ∧
        pieces (c0 :: tl) s ≤ 1 + pieces (c0 :: tl) (s.drop (tl.length + 1)) := by
  induction n with
  | zero =>
    intro s hs
    have : s = [] := List.length_eq_zero.mp (by omega)
    subst this
    refine ⟨fun c => ?_, ?_⟩
    · rw [pieces_nil]
      exact pieces_pos _ _
    · simp [pieces_nil]
  | succ n ih =>
    intro s hs
    have hA : ∀ t : Str, t.length ≤ n → ∀ c, pieces (c0 :: tl) t ≤ pieces (c0 :: tl) (c :: t) :=
      fun t ht => (ih t ht).1
    have hD := drop_step (c0 :: tl) tl.length n hA
    have hA2 : pieces (c0 :: tl) s ≤ 1 + pieces (c0 :: tl) (s.drop (tl.length + 1)) := by
      cases s with
      | nil => simp [pieces_nil]
      | cons c cs =>
        have hcs : cs.length ≤ n := by simpa using hs
        rw [pieces_cons, List.drop_succ_cons]
        simp only [List.length_cons, Nat.add_sub_cancel]
        split
        · exact Nat.le_refl _
        · have h1 := (ih cs hcs).2
          have h2 := hD cs (by omega)
          omega
    refine ⟨fun c => ?_, hA2⟩
    rw [pieces_cons _ c]
    simp only [List.length_cons, Nat.add_sub_cancel]
    split
    · have h2 := hD s hs
      omega
    · exact Nat.le_refl _

theorem pieces_cons_le (sep : Str) (hs : sep ≠ []) (c : Char) (s : Str) :
    pieces sep s ≤ pieces sep (c :: s) := by
  cases sep with
  | nil => exact absurd rfl hs
  | cons c0 tl => exact (pieces_mono c0 tl s.length s (Nat.le_refl _)).1 c

theorem pieces_occurrence (sep : Str) (hs : sep ≠ []) (a t : Str) :
    1 + pieces sep t ≤ pieces sep (a ++ sep ++ t) := by
  induction a with
  | nil =>
    cases sep with
    | nil => exact absurd rfl hs
    | cons c0 tl =>
      have hp : (c0 :: tl).isPrefixOf (c0 :: (tl ++ t)) = true := by
        rw [List.isPrefixOf_iff_prefix]
        exact ⟨t, rfl⟩
      show 1 + pieces (c0 :: tl) t ≤ pieces (c0 :: tl) (c0 :: (tl ++ t))
      rw [pieces_cons, if_pos hp]
      simp
  | cons c a ih =>
    have := pieces_cons_le sep hs c (a ++ sep ++ t)
    simp only [List.cons_append]
    simp only [List.append_assoc] at this ih ⊢
    omega

/-- Splitting a join on its separator yields at least as many pieces as were
joined, whatever the tokens contain. -/
theorem Split_Join_length (sep : Str) (hs : sep ≠ []) (ws : List Str) (hne : ws ≠ []) :
    ws.length ≤ (Split (Join ws sep) sep).length := by
  unfold Split
  rw [if_neg hs]
  show ws.length ≤ pieces sep (Join ws sep)
  induction ws with
  | nil => exact absurd rfl hne
  | cons w ws ih =>
    cases ws with
    | nil => exact pieces_pos _ _
    | cons w2 ws =>
      rw [Join_cons_cons]
      have h1 := pieces_occurrence sep hs w (Join (w2 :: ws) sep)
      have h2 := ih (by simp)
      simp only [List.length_cons] at h2 ⊢
      omega

theorem fillLoop_inv_length (gen : M Str) (n : Nat) :
    ∀ (i : Nat) (a a1 : List Str) (k k1 : Nat),
      fillLoop gen n i a k = some (a1, k1) → a1.length = a.length := by
  induction n with
  | zero =>
    intro i a a1 k k1 h
    rw [fillLoop, pure_run] at h
    simp only [Option.some.injEq, Prod.mk.injEq] at h
    rw [← h.1]
  | succ n ih =>
    intro i a a1 k k1 h
    rw [fillLoop] at h
    obtain ⟨w, k2, -, h2⟩ := bind_inv _ _ _ _ h
    rw [ih (i + 1) (a.set i w) a1 k2 k1 h2, List.length_set]

theorem fillSecret_inv_length {E : Type} (gen : M Str) (p q : Passphrase E) (k k0 : Nat)
    (hwf : p.Length < 2 ^ 64) (h : fillSecret gen p k = some (q, k0)) :
    ∃ ws, ws.length = p.Length ∧ q = { p with Secret := Join ws p.Separator } := by
  have hA := fillSecret_alloc gen p q k k0 hwf h
  unfold fillSecret at h
  rw [goInt_small _ (alloc_bounds _ hA).1,
    bind_some _ _ _ _ _ (makeSlice_run 16 p.Length [] k hA), List.length_replicate] at h
  obtain ⟨ws, k1, h1, h2⟩ := bind_inv _ _ _ _ h
  rw [pure_run] at h2
  simp only [Option.some.injEq, Prod.mk.injEq] at h2
  refine ⟨ws, ?_, h2.1.symm⟩
  rw [fillLoop_inv_length gen p.Length 0 _ ws k k1 h1, List.length_replicate]

/-- C19: on a request with `|Include| ≤ Length < 2 ^ 63`, whatever the separator
and the strategy, the draft splits on the separator into at least `Length`
tokens, even when tokens contain the separator, and the include pass run on
the draft returns: no `randInt` call has a bound below 1 and no read
`pwdIndices[n]` or `p.Include[n]` is out of range, either of which would stop
the computation; the writes `indices[i]` and `words[i]` are at indices of
their own `range` loop.  With a non-empty dictionary the strategy does
produce a draft exactly when its `make` accepts `Length`. -/
theorem C19_include_safe {E : Type} (env : Env E) (rnd : Nat → Nat → Nat) (hv : ValidRnd rnd)
    (p : Passphrase E) (k : Nat) (hlen : p.Include.length ≤ p.Length)
    (hL : p.Length < 2 ^ 63) :
    (∀ q k0, runList env rnd (strategy p) (withDefaults p) k = some (q, k0) →
      p.Length ≤ (Split q.Secret q.Separator).length ∧
        ∃ q2 k2, includeWords rnd q k0 = some (q2, k2)) ∧
    (DictReady env (strategy p) →
      ((∃ q k0, runList env rnd (strategy p) (withDefaults p) k = some (q, k0)) ↔
        16 * p.Length ≤ maxAlloc)) := by
  refine ⟨?_, ?_⟩
  · intro q k0 hrun
    rw [runList_eq, withDefaults_eq] at hrun
    have hwf : p.Length < 2 ^ 64 := by omega
    have hA : 16 * p.Length ≤ maxAlloc :=
      fillSecret_alloc _ { p with Separator := sepOf p, List := some (strategy p) } _ _ _ hwf hrun
    obtain ⟨ws, hws, hq⟩ := fillSecret_inv_length _
      { p with Separator := sepOf p, List := some (strategy p) } _ _ _ hwf hrun
    replace hws : ws.length = p.Length := hws
    have hsplit : p.Length ≤ (Split q.Secret q.Separator).length := by
      rw [hq]
      show p.Length ≤ (Split (Join ws (sepOf p)) (sepOf p)).length
      by_cases hne : ws = []
      · rw [hne] at hws
        simp only [List.length_nil] at hws
        omega
      · have := Split_Join_length (sepOf p) (sepOf_ne_nil p) ws hne
        omega
    refine ⟨hsplit, ?_⟩
    have hqlen : q.Include.length ≤ q.Length := by rw [hq]; exact hlen
    have hqL : q.Length < 2 ^ 63 := by rw [hq]; exact hL
    have hqs : q.Length ≤ (Split q.Secret q.Separator).length := by
      have : q.Length = p.Length := by rw [hq]
      rw [this]
      exact hsplit
    have hqA : 8 * q.Length ≤ maxAlloc := by rw [hq]; exact (alloc_bounds _ hA).2
    obtain ⟨ws1, k1, kept, h1, -, -, -⟩ := includeWords_run rnd hv q k0 hqlen hqL hqA hqs
    exact ⟨_, k1, h1⟩
  · intro hd
    refine ⟨?_, ?_⟩
    · rintro ⟨q, k0, hrun⟩
      rw [runList_eq, withDefaults_eq] at hrun
      have hwf : p.Length < 2 ^ 64 := by omega
      exact fillSecret_alloc _ { p with Separator := sepOf p, List := some (strategy p) }
        _ _ _ hwf hrun
    · intro hA
      obtain ⟨ws, k0, h1, -, -⟩ :=
        fillSecret_run (token env rnd (strategy p)) (Producible env (strategy p))
          (token_yields env rnd hv (strategy p) hd)
          { p with Separator := sepOf p, List := some (strategy p) } k hA
      rw [runList_eq, withDefaults_eq]
      exact ⟨_, k0, h1⟩

theorem C19_include_safe_witness :
    (∀ q k0,
      runList envT (tape [])
          (strategy (⟨[], 2, ['a'], none, [['x'], ['y']], [], (0, 0)⟩ : Passphrase (Int × Int)))
          (withDefaults ⟨[], 2, ['a'], none, [['x'], ['y']], [], (0, 0)⟩) 0 = some (q, k0) →
        2 ≤ (Split q.Secret q.Separator).length ∧
          ∃ q2 k2, includeWords (tape []) q k0 = some (q2, k2)) ∧
    (DictReady envT
        (strategy (⟨[], 2, ['a'], none, [['x'], ['y']], [], (0, 0)⟩ : Passphrase (Int × Int))) →
      ((∃ q k0,
        runList envT (tape [])
          (strategy (⟨[], 2, ['a'], none, [['x'], ['y']], [], (0, 0)⟩ : Passphrase (Int × Int)))
          (withDefaults ⟨[], 2, ['a'], none, [['x'], ['y']], [], (0, 0)⟩) 0 = some (q, k0)) ↔
        16 * 2 ≤ maxAlloc)) :=
  C19_include_safe envT (tape []) (tape_valid _)
    ⟨[], 2, ['a'], none, [['x'], ['y']], [], (0, 0)⟩ 0 (by decide) (by decide)

/-! ## C12: the exclude pass on the tokens of the secret -/

theorem excludeInner_exact (gen : M Str) (i : Nat) (word : Str) (exclude : List Str) :
    ∀ (words words1 : List Str) (k k1 : Nat),
      excludeInner gen i word exclude words k = some (words1, k1) →
      (word ∉ exclude ∧ words1 = words ∧ k1 = k) ∨
      (word ∈ exclude ∧ ∃ kk w, callsFrom gen (occurrences word exclude - 1) k = some kk ∧
        gen kk = some (w, k1) ∧ words1 = words.set i w) := by
  induction exclude with
  | nil =>
    intro words words1 k k1 h
    rw [excludeInner, pure_run] at h
    simp only [Option.some.injEq, Prod.mk.injEq] at h
    exact Or.inl ⟨by simp, h.1.symm, h.2.symm⟩
  | cons excl rest ih =>
    intro words words1 k k1 h
    by_cases hw : word = excl
    · rw [excludeInner, if_pos hw] at h
      obtain ⟨w, k2, hg, h2⟩ := bind_inv _ _ _ _ h
      have hocc : occurrences word (excl :: rest) = occurrences word rest + 1 := by
        rw [occurrences_cons, if_pos hw.symm]; omega
      refine Or.inr ⟨by simp [hw], ?_⟩
      rcases ih _ _ _ _ h2 with ⟨hn, h3, h4⟩ | ⟨hm, kk, w2, h3, h4, h5⟩
      · refine ⟨k, w, ?_, ?_, h3⟩
        · rw [hocc, occurrences_zero _ _ hn]
          rfl
        · rw [h4]; exact hg
      · refine ⟨kk, w2, ?_, h4, ?_⟩
        · have hp := occurrences_pos _ _ hm
          have he : occurrences word rest + 1 - 1 = (occurrences word rest - 1) + 1 := by omega
          rw [hocc, he]
          show (match gen k with
            | none => none
            | some (_, k1) => callsFrom gen (occurrences word rest - 1) k1) = some kk
          rw [hg]
          exact h3
        · rw [h5, set_set_same]
    · rw [excludeInner, if_neg hw] at h
      have hocc : occurrences word (excl :: rest) = occurrences word rest := by
        rw [occurrences_cons, if_neg (fun h0 => hw h0.symm)]; omega
      rcases ih _ _ _ _ h with ⟨hn, h3, h4⟩ | ⟨hm, kk, w2, h3, h4, h5⟩
      · exact Or.inl ⟨by simp [hw, hn], h3, h4⟩
      · exact Or.inr ⟨by simp [hm], kk, w2, by rw [hocc]; exact h3, h4, h5⟩

theorem excludeOuter_exact (gen : M Str) (exclude : List Str) (post : List Str) :
    ∀ (pre words1 : List Str) (k k1 : Nat),
      excludeOuter gen exclude post.length pre.length (pre ++ post) k = some (words1, k1) →
      ∃ post1, words1 = pre ++ post1 ∧ ExcludePass gen exclude k post post1 k1 := by
  induction post with
  | nil =>
    intro pre words1 k k1 h
    simp only [List.length_nil, excludeOuter, pure_run, List.append_nil, Option.some.injEq,
      Prod.mk.injEq] at h
    exact ⟨[], by simp [h.1], by simp [ExcludePass, h.2]⟩
  | cons x post ih =>
    intro pre words1 k k1 h
    rw [List.length_cons, excludeOuter,
      bind_some _ _ _ _ _ (index_at_length pre x post k)] at h
    obtain ⟨words2, k2, h1, h2⟩ := bind_inv _ _ _ _ h
    rcases excludeInner_exact gen _ _ _ _ _ _ _ h1 with ⟨hn, h3, h4⟩ | ⟨hm, kk, w, h3, h4, h5⟩
    · rw [h3, h4] at h2
      have h6 : excludeOuter gen exclude post.length (pre ++ [x]).length ((pre ++ [x]) ++ post) k
          = some (words1, k1) := by simpa using h2
      obtain ⟨post1, h7, h8⟩ := ih _ _ _ _ h6
      refine ⟨x :: post1, by simpa using h7, ?_⟩
      exact Or.inl ⟨hn, rfl, h8⟩
    · rw [set_at_length] at h5
      subst h5
      have h6 : excludeOuter gen exclude post.length (pre ++ [w]).length ((pre ++ [w]) ++ post) k2
          = some (words1, k1) := by simpa using h2
      obtain ⟨post1, h7, h8⟩ := ih _ _ _ _ h6
      refine ⟨w :: post1, by simpa using h7, ?_⟩
      exact Or.inr ⟨hm, kk, k2, h3, h4, h8⟩

theorem Split_length_pos (s sep : Str) (hs : sep ≠ []) : 1 ≤ (Split s sep).length := by
  unfold Split
  rw [if_neg hs, splitGo_length]
  exact pieces_pos _ _

/-- C12 as worded fails: with the separator `a`, `Exclude = ["b"]` and the secret
`bac`, whose tokens are `b` and `c`, the pass regenerates position 0; the
strategy returns `bab` and the secret becomes `babac`, whose tokens are `b`,
`b` and `c`: the token at position 1 was `c`, equal to no excluded word, and
is now the excluded word `b`, at a position that was not regenerated. -/
theorem C12_counterexample :
    excludeWords envT (tape [0, 4, 0, 0, 0, 4, 0])
        ⟨"bac".toList, 2, ['a'], some .NoList, [], [['b']], (0, 0)⟩ .NoList 0 =
      some (⟨"babac".toList, 2, ['a'], some .NoList, [], [['b']], (0, 0)⟩, 7) ∧
    pseudoWord (tape [0, 4, 0, 0, 0, 4, 0]) 0 = some ("bab".toList, 7) ∧
    Split "bac".toList ['a'] = [['b'], ['c']] ∧
    Split "babac".toList ['a'] = [['b'], ['b'], ['c']] := by
  decide

/-- C12, amended: the exclude pass, when the separator is not empty and its first
character occurs neither in a token of `Secret` nor in a token the strategy
can produce.  The pass returns and changes `Secret` only.  Position by
position over the tokens of `Secret` split on `Separator`, before and after
the pass (`ExcludePass`): a token equal to no word of `Exclude` is left
unchanged at its position and costs no call of the random source; a token
equal to some word of `Exclude` is overwritten by a token the strategy
returns from calls made then and there, each position starting at the call
where the previous position ended and the pass ending at the call returned.
Hence a final token equal to an excluded word sits at a position that was
regenerated. -/
theorem C12_exclude_pass {E : Type} (env : Env E) (rnd : Nat → Nat → Nat) (hv : ValidRnd rnd)
    (m : list) (hd : DictReady env m) (p : Passphrase E) (k : Nat)
    (hsep : p.Separator ≠ [])
    (hc : ∀ w, w ∈ Split p.Secret p.Separator ∨ Producible env m w →
      AvoidsSep p.Separator w) :
    ∃ q k1,
      excludeWords env rnd p m k = some (q, k1) ∧
      q = { p with Secret := q.Secret } ∧
      ExcludePass (token env rnd m) p.Exclude k (Split p.Secret p.Separator)
        (Split q.Secret q.Separator) k1 ∧
      List.Forall₂
        (fun w w1 => (w ∉ p.Exclude ∧ w1 = w) ∨ (w ∈ p.Exclude ∧ Producible env m w1))
        (Split p.Secret p.Separator) (Split q.Secret q.Separator) ∧
      List.Forall₂ (fun w w1 => w1 ∈ p.Exclude → w ∈ p.Exclude)
        (Split p.Secret p.Separator) (Split q.Secret q.Separator) := by
  obtain ⟨ws1, k1, h1, h2⟩ :=
    excludeOuter_run (token env rnd m) (Producible env m) (token_yields env rnd hv m hd)
      p.Exclude (Split p.Secret p.Separator) [] k
  obtain ⟨post1, h3, h4⟩ := excludeOuter_exact (token env rnd m) p.Exclude
    (Split p.Secret p.Separator) [] _ k k1 h1
  have h5 : post1 = ws1 := by simpa using h3.symm
  rw [h5] at h4
  obtain ⟨hlen, hmem⟩ := forall2_mem _ _ _ _ h2
  obtain ⟨c, tl, hct⟩ : ∃ c tl, p.Separator = c :: tl := by
    cases h : p.Separator with
    | nil => exact absurd h hsep
    | cons c tl => exact ⟨c, tl, rfl⟩
  have hne : ws1 ≠ [] := by
    intro h
    have := Split_length_pos p.Secret p.Separator hsep
    rw [h] at hlen
    simp only [List.length_nil] at hlen
    omega
  have hsplit : Split (Join ws1 p.Separator) p.Separator = ws1 := by
    rw [hct]
    refine Split_Join c tl ws1 hne ?_
    intro w hw
    exact hc w (hmem w hw) c (by rw [hct]; rfl)
  have hrun : excludeWords env rnd p m k =
      some ({ p with Secret := Join ws1 p.Separator }, k1) := by
    unfold excludeWords
    rw [bind_some _ _ _ _ _ (by simpa using h1)]
    rfl
  refine ⟨_, k1, hrun, rfl, ?_, ?_, ?_⟩
  · show ExcludePass _ _ _ _ (Split (Join ws1 p.Separator) p.Separator) _
    rw [hsplit]
    exact h4
  · show List.Forall₂ _ _ (Split (Join ws1 p.Separator) p.Separator)
    rw [hsplit]
    exact h2
  · show List.Forall₂ _ _ (Split (Join ws1 p.Separator) p.Separator)
    rw [hsplit]
    refine h2.imp ?_
    intro w w1 hw hin
    rcases hw with ⟨hn, rfl⟩ | ⟨hm, -⟩
    · exact absurd hin hn
    · exact hm

theorem C12_exclude_pass_witness :
    ∃ q k1,
      excludeWords envT (tape [0, 1])
          ⟨"ba+q+ter".toList, 3, ['+'], some .SyllableList, [], [['q'], "ter".toList], (0, 0)⟩
          .SyllableList 0 = some (q, k1) ∧
      q = { (⟨"ba+q+ter".toList, 3, ['+'], some .SyllableList, [],
              [['q'], "ter".toList], (0, 0)⟩ : Passphrase (Int × Int)) with
            Secret := q.Secret } ∧
      ExcludePass (token envT (tape [0, 1]) .SyllableList) [['q'], "ter".toList] 0
        (Split "ba+q+ter".toList ['+']) (Split q.Secret q.Separator) k1 ∧
      List.Forall₂
        (fun w w1 => (w ∉ [['q'], "ter".toList] ∧ w1 = w) ∨
          (w ∈ [['q'], "ter".toList] ∧ Producible envT .SyllableList w1))
        (Split "ba+q+ter".toList ['+']) (Split q.Secret q.Separator) ∧
      List.Forall₂ (fun w w1 => w1 ∈ [['q'], "ter".toList] → w ∈ [['q'], "ter".toList])
        (Split "ba+q+ter".toList ['+']) (Split q.Secret q.Separator) :=
  C12_exclude_pass envT (tape [0, 1]) (tape_valid _) .SyllableList
    (by simp [DictReady, envT])
    ⟨"ba+q+ter".toList, 3, ['+'], some .SyllableList, [], [['q'], "ter".toList], (0, 0)⟩ 0
    (by decide)
    (by
      intro w hw
      have hs : Split "ba+q+ter".toList ['+'] = ["ba".toList, ['q'], "ter".toList] := by decide
      have hw2 : w = "ba".toList ∨ w = ['q'] ∨ w = "ter".toList := by
        rcases hw with hw | hw
        · rw [hs] at hw
          simpa using hw
        · have : w = "ba".toList ∨ w = "ter".toList := by
            simpa [Producible, envT] using hw
          rcases this with h | h
          · exact Or.inl h
          · exact Or.inr (Or.inr h)
      rcases hw2 with rfl | rfl | rfl <;>
        · intro c hc
          have hc2 : c = '+' := by simpa using hc.symm
          subst hc2
          decide)

/-! ## C15: the include pass on the tokens of the secret -/

theorem forall2_left {α β : Type} (R : α → β → Prop) (xs : List α) (ys : List β)
    (h : List.Forall₂ R xs ys) : ∀ a ∈ xs, ∃ b ∈ ys, R a b := by
  induction h with
  | nil => simp
  | @cons a b l1 l2 hab _ ih =>
    intro x hx
    rcases List.mem_cons.mp hx with rfl | hx
    · exact ⟨b, by simp, hab⟩
    · obtain ⟨y, hy, hR⟩ := ih x hx
      exact ⟨y, by simp [hy], hR⟩

/-- C15 as worded fails: with the separator `-`, `Length = 2`, the secret `ba-ter`
and `Include = ["x-y"]`, the pass picks position 0 and writes the include word
there; the secret becomes `x-y-ter`, whose tokens are `x`, `y` and `ter`: no
token is the include word, and the token at position 1, which was `ter`, is
now `y`. -/
theorem C15_counterexample :
    includeWords (tape [0, 0])
        (⟨"ba-ter".toList, 2, ['-'], some .SyllableList, ["x-y".toList], [], (0, 0)⟩ :
          Passphrase (Int × Int)) 0 =
      some (⟨"x-y-ter".toList, 2, ['-'], some .SyllableList, [], [], (0, 0)⟩, 2) ∧
    Split "ba-ter".toList ['-'] = ["ba".toList, "ter".toList] ∧
    Split "x-y-ter".toList ['-'] = [['x'], ['y'], "ter".toList] := by
  decide

/-- C15, amended: the include pass, for `|Include| ≤ Length` and a secret that
splits into at least `Length` tokens, when the separator is not empty and its
first character occurs in no token of the secret and in no include word.
The slice of tokens `words`, which `strings.Split` has allocated, is within
the allocation bound of the runtime (`hwords`).  The pass returns, changes
`Secret` and empties `Include`, and the secret splits into as many tokens as
before.  There are `|Include|` distinct positions `pos` below `Length` and a
permutation `perm` of `Include`, matched one to one, such that after the
pass the token at each position of `pos` is its include word, and the token
at every other position is unchanged. -/
theorem C15_include_pass {E : Type} (rnd : Nat → Nat → Nat) (hv : ValidRnd rnd)
    (p : Passphrase E) (k : Nat) (hlen : p.Include.length ≤ p.Length)
    (hsplit : p.Length ≤ (Split p.Secret p.Separator).length)
    (hwords : 16 * (Split p.Secret p.Separator).length ≤ maxAlloc)
    (hsep : p.Separator ≠ [])
    (hc : ∀ w, w ∈ Split p.Secret p.Separator ∨ w ∈ p.Include → AvoidsSep p.Separator w) :
    ∃ q k1 pos perm,
      includeWords rnd p k = some (q, k1) ∧
        q = { p with Secret := q.Secret, Include := [] } ∧
        (Split q.Secret q.Separator).length = (Split p.Secret p.Separator).length ∧
        pos.Nodup ∧ pos.length = p.Include.length ∧ (∀ n ∈ pos, n < p.Length) ∧
        perm.Perm p.Include ∧
        List.Forall₂ (fun n w => (Split q.Secret q.Separator)[n]? = some w) pos perm ∧
        ∀ n, n ∉ pos → (Split q.Secret q.Separator)[n]? = (Split p.Secret p.Separator)[n]? := by
  have hA : 8 * p.Length ≤ maxAlloc := by omega
  have hL : p.Length < 2 ^ 63 := by
    rw [maxAlloc_eq] at hA
    omega
  have hrange : (List.range p.Length).Nodup := List.nodup_range _
  obtain ⟨picked, h1, h2, h3, h4⟩ :=
    pickLoop_run rnd hv p.Include.length (List.range p.Length) [] k (by simpa using hlen) hrange
  have hlt : ∀ j ∈ picked, j < ([] : List Str).length + (Split p.Secret p.Separator).length := by
    intro j hj
    have := List.mem_range.mp (h4 j hj)
    simp only [List.length_nil, Nat.zero_add]
    omega
  have hlen2 : p.Include.length =
      (picked.filter (fun j => decide (([] : List Str).length ≤ j))).length := by
    simp [h2]
  obtain ⟨ws1, k1, pos, perm, h5, h6, h7, h8, h9, h10, h11, h12⟩ :=
    includeOuter_places rnd hv picked h3 (Split p.Secret p.Separator) [] p.Include
      (k + p.Include.length) hlt hlen2
  have hrun : includeWords rnd p k =
      some ({ p with Secret := Join ws1 p.Separator, Include := [] }, k1) := by
    unfold includeWords
    rw [bind_some _ _ _ _ _ (makeSlice_run 8 p.Include.length 0 k (by omega)), goInt_small _ hL,
      bind_some _ _ _ _ _ (makeSlice_run 8 p.Length 0 k hA)]
    simp only [Int.toNat_ofNat]
    rw [fill_range p.Length p.Length (Nat.le_refl _)]
    simp only [Nat.sub_self, List.replicate_zero, List.append_nil, List.length_replicate]
    rw [bind_some _ _ _ _ _ (by simpa using h1), bind_some _ _ _ _ _ (by simpa using h5)]
    rfl
  have hpos : List.Forall₂ (fun q w => ws1[q]? = some w) pos perm := by
    refine h11.imp ?_
    intro q w hq
    simpa using hq.2
  have hout : ∀ n, n ∉ pos → ws1[n]? = (Split p.Secret p.Separator)[n]? := by
    intro n hn
    refine h12 n ?_
    intro hin
    simp only [List.length_nil, Nat.zero_add] at hin
    exact hn (h10 n hin (Nat.zero_le _))
  obtain ⟨c, tl, hct⟩ : ∃ c tl, p.Separator = c :: tl := by
    cases h : p.Separator with
    | nil => exact absurd h hsep
    | cons c tl => exact ⟨c, tl, rfl⟩
  have hne : ws1 ≠ [] := by
    intro h
    have := Split_length_pos p.Secret p.Separator hsep
    rw [h] at h6
    simp only [List.length_nil] at h6
    omega
  have hmem : ∀ w ∈ ws1, w ∈ Split p.Secret p.Separator ∨ w ∈ p.Include := by
    intro w hw
    obtain ⟨n, hn⟩ := List.mem_iff_getElem?.mp hw
    by_cases hnp : n ∈ pos
    · obtain ⟨w2, hw2, hR⟩ := forall2_left _ _ _ hpos n hnp
      have hR2 : ws1[n]? = some w2 := hR
      rw [hn] at hR2
      simp only [Option.some.injEq] at hR2
      rw [hR2]
      exact Or.inr (h7.subset hw2)
    · rw [hout n hnp] at hn
      exact Or.inl (List.mem_iff_getElem?.mpr ⟨n, hn⟩)
  have hs : Split (Join ws1 p.Separator) p.Separator = ws1 := by
    rw [hct]
    refine Split_Join c tl ws1 hne ?_
    intro w hw
    exact hc w (hmem w hw) c (by rw [hct]; rfl)
  refine ⟨_, k1, pos, perm, hrun, rfl, ?_, h8, ?_, ?_, h7, ?_, ?_⟩
  · show (Split (Join ws1 p.Separator) p.Separator).length = _
    rw [hs]
    exact h6
  · rw [h11.length_eq, h7.length_eq]
  · intro q hq
    exact List.mem_range.mp (h4 q (h9 q hq).2)
  · show List.Forall₂ (fun n w => (Split (Join ws1 p.Separator) p.Separator)[n]? = some w) _ _
    rw [hs]
    exact hpos
  · show ∀ n, n ∉ pos → (Split (Join ws1 p.Separator) p.Separator)[n]? = _
    rw [hs]
    exact hout

theorem C15_include_pass_witness :
    ∃ q k1 pos perm,
      includeWords (tape [2, 0, 1, 0])
          (⟨"ba ter ba ter".toList, 4, [' '], some .SyllableList,
            ["correct".toList, "horse".toList], [], (0, 0)⟩ : Passphrase (Int × Int)) 0 =
        some (q, k1) ∧
      q = { (⟨"ba ter ba ter".toList, 4, [' '], some .SyllableList,
              ["correct".toList, "horse".toList], [], (0, 0)⟩ : Passphrase (Int × Int)) with
            Secret := q.Secret, Include := [] } ∧
      (Split q.Secret q.Separator).length = (Split "ba ter ba ter".toList [' ']).length ∧
      pos.Nodup ∧ pos.length = ["correct".toList, "horse".toList].length ∧
      (∀ n ∈ pos, n < 4) ∧
      perm.Perm ["correct".toList, "horse".toList] ∧
      List.Forall₂ (fun n w => (Split q.Secret q.Separator)[n]? = some w) pos perm ∧
      ∀ n, n ∉ pos →
        (Split q.Secret q.Separator)[n]? = (Split "ba ter ba ter".toList [' '])[n]? :=
  C15_include_pass (tape [2, 0, 1, 0]) (tape_valid _)
    ⟨"ba ter ba ter".toList, 4, [' '], some .SyllableList,
      ["correct".toList, "horse".toList], [], (0, 0)⟩ 0 (by decide) (by decide) (by decide)
    (by decide)
    (by
      intro w hw
      have hs : Split "ba ter ba ter".toList [' '] =
          ["ba".toList, "ter".toList, "ba".toList, "ter".toList] := by decide
      have hw2 : w = "ba".toList ∨ w = "ter".toList ∨ w = "correct".toList ∨
          w = "horse".toList := by
        rcases hw with hw | hw
        · rw [hs] at hw
          have : w = "ba".toList ∨ w = "ter".toList ∨ w = "ba".toList ∨ w = "ter".toList := by
            simpa using hw
          rcases this with h | h | h | h
          · exact Or.inl h
          · exact Or.inr (Or.inl h)
          · exact Or.inl h
          · exact Or.inr (Or.inl h)
        · have : w = "correct".toList ∨ w = "horse".toList := by simpa using hw
          rcases this with h | h
          · exact Or.inr (Or.inr (Or.inl h))
          · exact Or.inr (Or.inr (Or.inr h))
      rcases hw2 with rfl | rfl | rfl | rfl <;>
        · intro c hc
          have hc2 : c = ' ' := by simpa using hc.symm
          subst hc2
          decide)

end Atoll
